import Mathlib

/-!
Verification of the GEL `HMesh` smoothing module (`src/GEL/HMesh/smooth.cpp`)
against its natural-language specification.

Modelling conventions:
 * C++ `double`/`float` values are modelled by `Dbl`: exact rationals extended
   with `inf`, `ninf` and `nan`, with IEEE-754 special-value propagation rules.
   Rounding and overflow are not modelled (arithmetic on finite values is exact),
   and signed zero is identified with zero; decimal literals are read as exact
   rationals.
 * The half-edge mesh, its traversal (walkers / circulators) and the geometric
   primitives (face normal, area, centroid) are external collaborators of the
   module; they are modelled as data carried by a `Mesh` record: each vertex
   carries the list of wedge data its circulation would produce, each face the
   list of its incident vertices, and so on.
 * The transcendental library functions `sqrt`, `exp`, `sin`, `acos` are
   external; they are passed as an explicit record `MathPrims` of functions.
 * Mutation of the position attribute vector is modelled by explicit state
   passing (`Pos := ℕ → Vec3`).
 * The C++ integer division `no_vertices()/CORES` invoked with
   `no_vertices() < CORES` makes the later `cnt/batch_size` divide by zero,
   which is undefined behaviour; fallible code is therefore embedded in
   `Option`.
-/

/-- Kernel-computable rational addition: the `Batteries` rational arithmetic
is `@[irreducible]`, so the model uses `mkRat`-based operations (provably
equal to the standard ones, see `ratAdd_eq` and friends) to keep concrete
witnesses evaluable by `decide`. -/
def ratAdd (a b : ℚ) : ℚ := mkRat (a.num * b.den + b.num * a.den) (a.den * b.den)

/-- Kernel-computable rational multiplication. -/
def ratMul (a b : ℚ) : ℚ := mkRat (a.num * b.num) (a.den * b.den)

/-- Kernel-computable rational negation. -/
def ratNeg (a : ℚ) : ℚ := mkRat (-a.num) a.den

/-- Kernel-computable rational division. -/
def ratDiv (a b : ℚ) : ℚ := Rat.divInt (a.num * b.den) (a.den * b.num)

/-- Kernel-computable strict order test on rationals (cross multiplication). -/
def ratLtB (a b : ℚ) : Bool := decide (a.num * (b.den : ℤ) < b.num * (a.den : ℤ))

theorem ratAdd_eq (a b : ℚ) : ratAdd a b = a + b := (Rat.add_def' a b).symm

theorem ratMul_eq (a b : ℚ) : ratMul a b = a * b := by
  rw [ratMul, ← Rat.normalize_eq_mkRat (Nat.mul_ne_zero a.den_nz b.den_nz), ← Rat.mul_def]

theorem ratNeg_eq (a : ℚ) : ratNeg a = -a := by
  rw [ratNeg, ← Rat.neg_mkRat, Rat.mkRat_self]

theorem ratDiv_eq (a b : ℚ) : ratDiv a b = a / b := (Rat.div_def' a b).symm

theorem rat_lt_iff_cross (a b : ℚ) : a < b ↔ a.num * (b.den : ℤ) < b.num * (a.den : ℤ) := by
  have ha : (0 : ℚ) < (a.den : ℚ) := by
    exact_mod_cast Nat.pos_of_ne_zero a.den_nz
  have hb : (0 : ℚ) < (b.den : ℚ) := by
    exact_mod_cast Nat.pos_of_ne_zero b.den_nz
  constructor
  · intro h
    have h2 : (a.num : ℚ) / (a.den : ℚ) < (b.num : ℚ) / (b.den : ℚ) := by
      rwa [Rat.num_div_den, Rat.num_div_den]
    exact_mod_cast (div_lt_div_iff₀ ha hb).mp h2
  · intro h
    have h3 : (a.num : ℚ) * (b.den : ℚ) < (b.num : ℚ) * (a.den : ℚ) := by
      exact_mod_cast h
    have h2 := (div_lt_div_iff₀ ha hb).mpr h3
    rwa [Rat.num_div_den, Rat.num_div_den] at h2

theorem ratLtB_eq (a b : ℚ) : ratLtB a b = decide (a < b) := by
  rw [ratLtB, decide_eq_decide]
  exact (rat_lt_iff_cross a b).symm

/-- An IEEE-754 double idealized: an exact rational, or one of the three
special values `+inf`, `-inf`, `nan`. -/
inductive Dbl where
  | num (q : ℚ)
  | inf
  | ninf
  | nan
deriving DecidableEq, Repr

namespace Dbl

/-- Addition with IEEE special-value rules (`inf + ninf = nan`). -/
def add : Dbl → Dbl → Dbl
  | nan, _ => nan
  | _, nan => nan
  | num a, num b => num (ratAdd a b)
  | inf, ninf => nan
  | ninf, inf => nan
  | inf, _ => inf
  | _, inf => inf
  | ninf, _ => ninf
  | _, ninf => ninf

/-- Negation. -/
def neg : Dbl → Dbl
  | num a => num (-a)
  | inf => ninf
  | ninf => inf
  | nan => nan

/-- Subtraction. -/
def sub (a b : Dbl) : Dbl := add a (neg b)

/-- Multiplication with IEEE special-value rules (`0 * inf = nan`). -/
def mul : Dbl → Dbl → Dbl
  | nan, _ => nan
  | _, nan => nan
  | num a, num b => num (ratMul a b)
  | inf, inf => inf
  | inf, ninf => ninf
  | ninf, inf => ninf
  | ninf, ninf => inf
  | inf, num b => if 0 < b.num then inf else if b.num < 0 then ninf else nan
  | num a, inf => if 0 < a.num then inf else if a.num < 0 then ninf else nan
  | ninf, num b => if 0 < b.num then ninf else if b.num < 0 then inf else nan
  | num a, ninf => if 0 < a.num then ninf else if a.num < 0 then inf else nan

/-- Division with IEEE special-value rules: `x/0` is a signed infinity for
`x ≠ 0`, `0/0 = nan`, `inf/inf = nan`, `x/inf = 0` for finite `x`
(signed zero is identified with zero). -/
def div : Dbl → Dbl → Dbl
  | nan, _ => nan
  | _, nan => nan
  | num a, num b =>
      if b.num = 0 then (if 0 < a.num then inf else if a.num < 0 then ninf else nan)
      else num (ratDiv a b)
  | num _, inf => num 0
  | num _, ninf => num 0
  | inf, num b => if b.num < 0 then ninf else inf
  | ninf, num b => if b.num < 0 then inf else ninf
  | inf, inf => nan
  | inf, ninf => nan
  | ninf, inf => nan
  | ninf, ninf => nan

/-- Strict order; any comparison with `nan` is false. -/
def lt : Dbl → Dbl → Bool
  | num a, num b => a < b
  | num _, inf => true
  | ninf, num _ => true
  | ninf, inf => true
  | _, _ => false

/-- The `std::isnan` predicate. -/
def isNan : Dbl → Bool
  | nan => true
  | _ => false

/-- A value is finite when it is an actual rational. -/
def isFinite : Dbl → Bool
  | num _ => true
  | _ => false

/-- C++ `std::max(a, b)`, literally `(a < b) ? b : a`; with a `nan` second
argument it returns the first argument. -/
def cppMax (a b : Dbl) : Dbl := if lt a b then b else a

/-- C++ `std::min(a, b)`, literally `(b < a) ? b : a`; with a `nan` second
argument it returns the first argument. -/
def cppMin (a b : Dbl) : Dbl := if lt b a then b else a

/-- The `sqr` helper of the source: squaring. -/
def sqr (a : Dbl) : Dbl := mul a a

end Dbl

/-- A 3-vector of doubles (CGLA `Vec3d`). -/
structure Vec3 where
  x : Dbl
  y : Dbl
  z : Dbl
deriving DecidableEq, Repr

namespace Vec3

/-- The zero vector `Vec3d(0)`. -/
def zero : Vec3 := ⟨Dbl.num 0, Dbl.num 0, Dbl.num 0⟩

/-- Componentwise addition. -/
def add (u v : Vec3) : Vec3 := ⟨u.x.add v.x, u.y.add v.y, u.z.add v.z⟩

/-- Componentwise subtraction. -/
def sub (u v : Vec3) : Vec3 := ⟨u.x.sub v.x, u.y.sub v.y, u.z.sub v.z⟩

/-- Scalar multiplication `s * v`. -/
def smul (s : Dbl) (v : Vec3) : Vec3 := ⟨s.mul v.x, s.mul v.y, s.mul v.z⟩

/-- Division of a vector by a scalar, `v / s`. -/
def sdiv (v : Vec3) (s : Dbl) : Vec3 := ⟨v.x.div s, v.y.div s, v.z.div s⟩

/-- Dot product. -/
def dot (u v : Vec3) : Dbl :=
  ((u.x.mul v.x).add (u.y.mul v.y)).add (u.z.mul v.z)

/-- CGLA `sqr_length`: the squared Euclidean norm. -/
def sqrLength (v : Vec3) : Dbl := dot v v

/-- All three components are finite rationals. -/
def allFinite (v : Vec3) : Bool := v.x.isFinite && v.y.isFinite && v.z.isFinite

end Vec3

/-- The transcendental libm / CGLA primitives consumed by the module: they are
external collaborators, modelled as an explicit record of functions. -/
structure MathPrims where
  sqrtD : Dbl → Dbl
  expD : Dbl → Dbl
  sinD : Dbl → Dbl
  acosD : Dbl → Dbl

/-- Modelled from the spec: CGLA `normalize`, "vector normalize" consumed
opaquely — division of the vector by its Euclidean length. -/
def normalizeV (mp : MathPrims) (v : Vec3) : Vec3 :=
  Vec3.sdiv v (mp.sqrtD (Vec3.sqrLength v))

/-- Modelled from the spec: CGLA `cond_normalize`, "a safe normalize that
returns the zero vector rather than diverging when the input is near-zero
length" (the near-zero test is modelled as an exact zero test of the squared
length). -/
def cond_normalize (mp : MathPrims) (v : Vec3) : Vec3 :=
  if Vec3.sqrLength v = Dbl.num 0 then Vec3.zero
  else Vec3.sdiv v (mp.sqrtD (Vec3.sqrLength v))

/-- One step of counter-clockwise circulation around a vertex: the data the
walker `wv` exposes at that step. -/
structure RingStep where
  /-- `wv.vertex()`: the neighbour vertex reached by this wedge. -/
  vert : ℕ
  /-- `wv.next().vertex()`: the "left" vertex of the wedge. -/
  nextVert : ℕ
  /-- `wv.opp().prev().opp().vertex()`: the "right" vertex of the wedge. -/
  oppVert : ℕ
  /-- `wv.circulate_vertex_ccw().vertex()`: the neighbour of the following
  wedge (used by the TAL boundary angle sum). -/
  ccwVert : ℕ
  /-- `wv.face()`: the face of this wedge, or `none` for `InvalidFaceID`. -/
  face : Option ℕ
deriving DecidableEq, Repr

/-- The position attribute buffer: vertex id to position. -/
def Pos : Type := ℕ → Vec3

/-- The half-edge mesh collaborator, reduced to the data the smoothing module
reads through its traversal and storage contract: vertex/face/half-edge
enumeration, the boundary predicate, circulation data, and the opaque geometric
primitives (face normal, area, centroid as functions of the current
positions). -/
structure Mesh where
  /-- `m.vertices()` in enumeration order. -/
  verts : List ℕ
  /-- The external `boundary(m, v)` predicate. -/
  bnd : ℕ → Bool
  /-- The persistent position buffer at call entry. -/
  pos0 : Pos
  /-- Counter-clockwise circulation data of each vertex (open ring for
  boundary vertices). -/
  ring : ℕ → List RingStep
  /-- `m.faces()` in enumeration order. -/
  faces : List ℕ
  /-- Clockwise circulation around a face: the vertices
  `wf.vertex()` visited by `circulate_face_cw`. -/
  fverts : ℕ → List ℕ
  /-- Clockwise circulation around a vertex: the faces `wv.face()` visited by
  `circulate_vertex_cw` (with `none` for `InvalidFaceID`). -/
  vfaces : ℕ → List (Option ℕ)
  /-- External primitive `normal(m, f)` as a function of current positions. -/
  normalF : Pos → ℕ → Vec3
  /-- External primitive `area(m, f)` as a function of current positions. -/
  areaF : Pos → ℕ → Dbl
  /-- External primitive `centre(m, f)` as a function of current positions. -/
  centreF : Pos → ℕ → Vec3
  /-- `m.halfedges()` in enumeration order. -/
  hedges : List ℕ
  /-- `m.walker(h).vertex()`: the vertex a half-edge points to. -/
  hVert : ℕ → ℕ
  /-- `m.walker(h).opp().vertex()`: the vertex the half-edge comes from. -/
  hOppVert : ℕ → ℕ
  /-- `m.walker(h).face()`: the incident face, `none` for `InvalidFaceID`. -/
  hFace : ℕ → Option ℕ

/-- The fixed worker count `int CORES = 8`. -/
def CORES : ℕ := 8

/-- Append a vertex at the end of batch `i` (`vertex_ids[i].push_back(v)`). -/
def bucketPush (bs : List (List ℕ)) (i : ℕ) (v : ℕ) : List (List ℕ) :=
  bs.set i (bs.getD i [] ++ [v])

/-- One step of the `batch_vertices` loop body: skip boundary vertices,
otherwise assign the `cnt`-th accepted vertex to batch
`(cnt / batch_size) % CORES`.  When `batch_size = 0` the C++ division is
undefined behaviour, modelled as `none`. -/
def batchStep (m : Mesh) (batchSize : ℕ) (st : ℕ × List (List ℕ)) (v : ℕ) :
    Option (ℕ × List (List ℕ)) :=
  if m.bnd v then some st
  else if batchSize = 0 then none
  else some (st.1 + 1, bucketPush st.2 ((st.1 / batchSize) % CORES) v)

/-- `batch_vertices`: partition the non-boundary vertices into `CORES` batches,
assigning the `cnt`-th accepted vertex to batch `(cnt/batch_size) % CORES`
with `batch_size = no_vertices / CORES` (integer division). -/
def batch_vertices (m : Mesh) : Option (List (List ℕ)) :=
  let batchSize := m.verts.length / CORES
  (m.verts.foldlM (batchStep m batchSize) (0, List.replicate CORES [])).map
    Prod.snd

/-- Functional update of a position buffer (a single attribute-vector write). -/
def setPos (p : Pos) (v : ℕ) (x : Vec3) : Pos := fun w => if w = v then x else p w

/-- Modelled from the spec: the uniform (umbrella) Laplacian
`laplacian(mesh, v) = mean(neighbor positions) - position(v)` (§4.2); it is
declared in `smooth.h` and implemented outside the given source file. -/
def laplacian (m : Mesh) (pos : Pos) (v : ℕ) : Vec3 :=
  let ring := m.ring v
  Vec3.sub
    (Vec3.sdiv (ring.foldl (fun a s => Vec3.add a (pos s.vert)) Vec3.zero)
      (Dbl.num (ring.length : ℚ)))
    (pos v)

/-- The per-batch worker of `laplacian_smooth`: for every vertex of the batch
write `new_pos[v] = m.pos(v) + weight * laplacian(m, v)` into the scratch
buffer. -/
def lapWorker (m : Mesh) (weight : Dbl) (cur : Pos) (scratch : Pos)
    (vids : List ℕ) : Pos :=
  vids.foldl
    (fun s v => setPos s v (Vec3.add (cur v) (Vec3.smul weight (laplacian m cur v))))
    scratch

/-- One iteration of `laplacian_smooth`: run the worker over every batch
(batches are vertex-disjoint, so the parallel fan-out is modelled as a
sequential fold), then swap the scratch and live buffers. -/
def lapIter (m : Mesh) (weight : Dbl) (batches : List (List ℕ))
    (st : Pos × Pos) : Pos × Pos :=
  (batches.foldl (lapWorker m weight st.1) st.2, st.1)

/-- `laplacian_smooth`: batch the vertices once, then for `max_iter`
iterations update every batched vertex in parallel and swap buffers.  The
result is the live position buffer after the last swap; `none` when the batch
computation divides by zero. -/
def laplacian_smooth (m : Mesh) (weight : Dbl) (maxIter : ℕ) : Option Pos :=
  (batch_vertices m).map (fun batches =>
    ((List.range maxIter).foldl (fun st _ => lapIter m weight batches st)
      (m.pos0, m.pos0)).1)

/-- The per-wedge cotangent weight of `cot_laplacian`:
`w = sin(a_left + a_right) / (1e-10 + sin(a_left)*sin(a_right))` where the
angles come from `acos` of clamped dot products of safely normalized edge
vectors. -/
def cotWedgeW (mp : MathPrims) (pos : Pos) (vpos : Vec3) (s : RingStep) : Dbl :=
  let nbr := pos s.vert
  let left := pos s.nextVert
  let right := pos s.oppVert
  let dLeft := Vec3.dot (cond_normalize mp (Vec3.sub nbr left))
    (cond_normalize mp (Vec3.sub vpos left))
  let dRight := Vec3.dot (cond_normalize mp (Vec3.sub nbr right))
    (cond_normalize mp (Vec3.sub vpos right))
  let aLeft := mp.acosD (Dbl.cppMin (Dbl.num 1) (Dbl.cppMax (Dbl.num (-1)) dLeft))
  let aRight := mp.acosD (Dbl.cppMin (Dbl.num 1) (Dbl.cppMax (Dbl.num (-1)) dRight))
  Dbl.div (mp.sinD (aLeft.add aRight))
    ((Dbl.num (mkRat 1 10000000000)).add ((mp.sinD aLeft).mul (mp.sinD aRight)))

/-- The accumulation loop of `cot_laplacian`: the weighted position sum `p`
and the weight sum `w_sum` over the one-ring. -/
def cotAccum (mp : MathPrims) (m : Mesh) (pos : Pos) (v : ℕ) : Vec3 × Dbl :=
  (m.ring v).foldl
    (fun st s =>
      let w := cotWedgeW mp pos (pos v) s
      (Vec3.add st.1 (Vec3.smul w (pos s.vert)), st.2.add w))
    (Vec3.zero, Dbl.num 0)

/-- `cot_laplacian`: the cotangent-weighted Laplacian with its final guard —
the zero vector when `w_sum < 1e-20` or any accumulated component is NaN,
otherwise `p / w_sum - m.pos(v)`. -/
def cot_laplacian (mp : MathPrims) (m : Mesh) (pos : Pos) (v : ℕ) : Vec3 :=
  let st := cotAccum mp m pos v
  if Dbl.lt st.2 (Dbl.num (mkRat 1 100000000000000000000)) || st.1.x.isNan || st.1.y.isNan
      || st.1.z.isNan then
    Vec3.zero
  else Vec3.sub (Vec3.sdiv st.1 st.2) (pos v)

/-- One sub-iteration of `taubin_smooth` (iteration counter `iter`): write
`new_pos[v] = (iter%2 == 0 ? +0.5 : -0.52) * laplacian(m, v) + m.pos(v)` for
every non-boundary vertex, then swap the buffers. -/
def taubinSub (m : Mesh) (iter : ℕ) (st : Pos × Pos) : Pos × Pos :=
  (m.verts.foldl
    (fun s v =>
      if m.bnd v then s
      else
        setPos s v
          (Vec3.add
            (Vec3.smul (if iter % 2 = 0 then Dbl.num (mkRat 1 2) else Dbl.num (mkRat (-13) 25))
              (laplacian m st.1 v))
            (st.1 v)))
    st.2, st.1)

/-- `taubin_smooth`: `2*max_iter` sub-iterations of the alternating
inflate/deflate update. -/
def taubin_smooth (m : Mesh) (maxIter : ℕ) : Pos :=
  ((List.range (2 * maxIter)).foldl (fun st i => taubinSub m i st)
    (m.pos0, m.pos0)).1

/-- The sub-iteration trace of `taubin_smooth`, as a recursion on the number
of executed sub-iterations. -/
def taubinState (m : Mesh) : ℕ → Pos × Pos
  | 0 => (m.pos0, m.pos0)
  | k + 1 => taubinSub m k (taubinState m k)

/-- `face_neighbourhood`: the extended neighbourhood of `f` — `f` itself
followed by every valid face around every vertex of `f`, each recorded once
(the `touched` marker is equivalent to membership in the accumulated list,
since faces are pushed exactly when marked). -/
def face_neighbourhood (m : Mesh) (f : ℕ) : List ℕ :=
  (m.fverts f).foldl
    (fun nbrs v =>
      (m.vfaces v).foldl
        (fun nbrs fo =>
          match fo with
          | none => nbrs
          | some fn => if fn ∈ nbrs then nbrs else nbrs ++ [fn])
        nbrs)
    [f]

/-- The total angular distance `dist_sum = Σ_j (1 - dot(n_i, n_j))` of one
candidate normal against the whole neighbourhood. -/
def fvmDistSum (normals : List Vec3) (nn : Vec3) : Dbl :=
  normals.foldl (fun acc nj => acc.add ((Dbl.num 1).sub (Vec3.dot nn nj)))
    (Dbl.num 0)

/-- The median scan of `fvm_filtered_normal`: select the normal minimizing
`dist_sum`, scanning with an initial best of `1e32` (the source asserts that
some candidate wins; the dummy initial normal is never returned on a
non-empty list). -/
def fvmMedian (normals : List Vec3) : Dbl × Vec3 :=
  normals.foldl
    (fun best nn =>
      if Dbl.lt (fvmDistSum normals nn) best.1 then (fvmDistSum normals nn, nn)
      else best)
    (Dbl.num 100000000000000000000000000000000, Vec3.zero)

/-- The weight `fvm_filtered_normal` gives one neighbour normal:
`w = exp((dot(median_norm, n) - 1)/sigma)` with `sigma = 0.1`, zeroed below
`1e-2`. -/
def fvmWeight (mp : MathPrims) (medianNorm nn : Vec3) : Dbl :=
  if Dbl.lt
      (mp.expD (((Vec3.dot medianNorm nn).sub (Dbl.num 1)).div (Dbl.num (mkRat 1 10))))
      (Dbl.num (mkRat 1 100)) then
    Dbl.num 0
  else mp.expD (((Vec3.dot medianNorm nn).sub (Dbl.num 1)).div (Dbl.num (mkRat 1 10)))

/-- `fvm_filtered_normal`: median-anchored exponentially weighted average of
the extended-neighbourhood normals, normalized. -/
def fvm_filtered_normal (mp : MathPrims) (m : Mesh) (pos : Pos) (f : ℕ) : Vec3 :=
  normalizeV mp
    (((face_neighbourhood m f).map (m.normalF pos)).foldl
      (fun acc n =>
        Vec3.add acc
          (Vec3.smul
            (fvmWeight mp
              (fvmMedian ((face_neighbourhood m f).map (m.normalF pos))).2 n)
            n))
      Vec3.zero)

/-- The exact rational value of the C `M_PI` double constant. -/
def mPIQ : ℚ := 884279719003555 / 281474976710656

/-- Modelled from the spec: the external "edge length" primitive
`length(m, h)` (§6), the Euclidean distance between the endpoint positions of
a half-edge; implemented outside the given source file. -/
def lengthHE (mp : MathPrims) (m : Mesh) (pos : Pos) (h : ℕ) : Dbl :=
  mp.sqrtD (Vec3.sqrLength (Vec3.sub (pos (m.hVert h)) (pos (m.hOppVert h))))

/-- `bilateral_filtered_normal`: area-, angle- and space-weighted average of
the extended-neighbourhood normals, normalized; the spatial bandwidth is the
supplied `avg_len`. -/
def bilateral_filtered_normal (mp : MathPrims) (m : Mesh) (pos : Pos) (f : ℕ)
    (avgLen : Dbl) : Vec3 :=
  let nbrs := face_neighbourhood m f
  let p0 := m.centreF pos f
  let n0 := m.normalF pos f
  normalizeV mp
    (nbrs.foldl
      (fun acc nbr =>
        let n := m.normalF pos nbr
        let p := m.centreF pos nbr
        let wa := mp.expD
          ((mp.acosD (Dbl.cppMax (Dbl.num (-1)) (Dbl.cppMin (Dbl.num 1) (Vec3.dot n n0)))).neg.div
            (Dbl.num (mkRat 884279719003555 9007199254740992)))
        let ws := mp.expD ((mp.sqrtD (Vec3.sqrLength (Vec3.sub p p0))).neg.div avgLen)
        Vec3.add acc (Vec3.smul (((m.areaF pos nbr).mul wa).mul ws) n))
      Vec3.zero)

/-- The `NormalSmoothMethod` configuration enum. -/
inductive NormalSmoothMethod where
  | FVM_NORMAL_SMOOTH
  | BILATERAL_NORMAL_SMOOTH
deriving DecidableEq, Repr

/-- The mutable state of the anisotropic fixed-point relaxation: the live
positions, the per-vertex accumulated fitted positions and the per-vertex
contribution counts. -/
structure AnisoState where
  pos : Pos
  acc : ℕ → Vec3
  cnt : ℕ → ℕ

/-- The half-edge accumulation pass of one relaxation sub-iteration: for every
half-edge with a valid face, accumulate `m.pos(v) + 0.5 * n * dot(n, dir)`
into the destination vertex's accumulator and bump its count. -/
def anisoAccumStep (m : Mesh) (norms : ℕ → Vec3) (st : AnisoState) (h : ℕ) :
    AnisoState :=
  match m.hFace h with
  | none => st
  | some f =>
    { st with
      acc := fun w =>
        if w = m.hVert h then
          Vec3.add (st.acc (m.hVert h))
            (Vec3.add (st.pos (m.hVert h))
              (Vec3.smul
                ((Dbl.num (mkRat 1 2)).mul
                  (Vec3.dot (norms f)
                    (Vec3.sub (st.pos (m.hOppVert h)) (st.pos (m.hVert h)))))
                (norms f)))
        else st.acc w
      cnt := fun w => if w = m.hVert h then st.cnt (m.hVert h) + 1 else st.cnt w }

/-- The half-edge accumulation pass of one relaxation sub-iteration: run the
accumulation body over every half-edge. -/
def anisoAccum (m : Mesh) (norms : ℕ → Vec3) (st : AnisoState) : AnisoState :=
  m.hedges.foldl (anisoAccumStep m norms) st

/-- The body of the write-back loop: set one vertex to its accumulator
divided by its count and fold its squared displacement into the running
maximum. -/
def anisoWriteStep (p : AnisoState × Dbl) (v : ℕ) : AnisoState × Dbl :=
  ({ p.1 with
      pos := setPos p.1.pos v (Vec3.sdiv (p.1.acc v) (Dbl.num (p.1.cnt v : ℚ))) },
    if Dbl.lt p.2
        (Vec3.sqrLength
          (Vec3.sub (Vec3.sdiv (p.1.acc v) (Dbl.num (p.1.cnt v : ℚ)))
            (p.1.pos v))) then
      Vec3.sqrLength
        (Vec3.sub (Vec3.sdiv (p.1.acc v) (Dbl.num (p.1.cnt v : ℚ))) (p.1.pos v))
    else p.2)

/-- The write-back pass of one relaxation sub-iteration: set every vertex to
its accumulator divided by its count, tracking the maximum squared
displacement. -/
def anisoWrite (m : Mesh) (st : AnisoState) : AnisoState × Dbl :=
  m.verts.foldl anisoWriteStep (st, Dbl.num 0)

/-- One full relaxation sub-iteration: half-edge accumulation followed by the
position write-back; returns the new state and the `max_move` of the pass. -/
def anisoSubIter (m : Mesh) (norms : ℕ → Vec3) (st : AnisoState) :
    AnisoState × Dbl :=
  anisoWrite m (anisoAccum m norms st)

/-- The relaxation loop of `anisotropic_smooth`: up to `fuel` (source: 100)
sub-iterations, stopping early as soon as `max_move < thr`. -/
def anisoRelax (m : Mesh) (norms : ℕ → Vec3) (thr : Dbl) :
    ℕ → AnisoState → AnisoState
  | 0, st => st
  | fuel + 1, st =>
    let p := anisoSubIter m norms st
    if Dbl.lt p.2 thr then p.1 else anisoRelax m norms thr fuel p.1

/-- The per-face filtered normal selected by the configuration: bilateral
(using `avg_len` as spatial bandwidth) or FVM/median. -/
def anisoNorms (mp : MathPrims) (m : Mesh) (nsm : NormalSmoothMethod)
    (avgLen : Dbl) (pos : Pos) : ℕ → Vec3 :=
  fun f =>
    match nsm with
    | .BILATERAL_NORMAL_SMOOTH => bilateral_filtered_normal mp m pos f avgLen
    | .FVM_NORMAL_SMOOTH => fvm_filtered_normal mp m pos f

/-- The sum of the lengths of all half-edges at the given positions. -/
def halfEdgeLenSum (mp : MathPrims) (m : Mesh) (pos : Pos) : Dbl :=
  m.hedges.foldl (fun a h => a.add (lengthHE mp m pos h)) (Dbl.num 0)

/-- The average edge length as the source computes it: the sum of all
half-edge lengths divided by 2 (each edge is counted twice). -/
def avgEdgeLen (mp : MathPrims) (m : Mesh) (pos : Pos) : Dbl :=
  (halfEdgeLenSum mp m pos).div (Dbl.num 2)

/-- One outer iteration of `anisotropic_smooth` given the average edge length
in scope: compute the filtered normals, zero-initialize the accumulator and
count attributes, and run the relaxation with convergence threshold
`sqr(1e-8 * avg_len)`. -/
def anisoOuter (mp : MathPrims) (m : Mesh) (nsm : NormalSmoothMethod)
    (avgLen : Dbl) (pos : Pos) : Pos :=
  let norms := anisoNorms mp m nsm avgLen pos
  (anisoRelax m norms (Dbl.sqr ((Dbl.num (mkRat 1 100000000)).mul avgLen)) 100
    ⟨pos, fun _ => Vec3.zero, fun _ => 0⟩).pos

/-- `anisotropic_smooth`: the average half-edge length is computed once, from
the entry positions, before the outer loop; every outer iteration then filters
normals and runs the fixed-point relaxation with that single value. -/
def anisotropic_smooth (mp : MathPrims) (m : Mesh) (nsm : NormalSmoothMethod)
    (maxIter : ℕ) : Pos :=
  let avgLen := avgEdgeLen mp m m.pos0
  (List.range maxIter).foldl (fun pos _ => anisoOuter mp m nsm avgLen pos) m.pos0

/-- The specification's reading of `anisotropic_smooth` (for comparison with
the source): the average half-edge length recomputed once per outer iteration
from the current positions. -/
def anisotropic_smooth_claimed (mp : MathPrims) (m : Mesh)
    (nsm : NormalSmoothMethod) (maxIter : ℕ) : Pos :=
  (List.range maxIter).foldl
    (fun pos _ => anisoOuter mp m nsm (avgEdgeLen mp m pos) pos) m.pos0

/-- The per-vertex area accumulation of `TAL_smoothing`: the summed area of
the valid faces incident to `v`. -/
def vertex_area (m : Mesh) (pos : Pos) (v : ℕ) : Dbl :=
  (m.ring v).foldl
    (fun a s =>
      match s.face with
      | none => a
      | some f => a.add (m.areaF pos f))
    (Dbl.num 0)

/-- The boundary angle sum of `TAL_smoothing`: for every wedge with a valid
face, the `acos`-clamped angle between the normalized directions to the
wedge's neighbour and to the next wedge's neighbour. -/
def talAngleSum (mp : MathPrims) (m : Mesh) (pos : Pos) (v : ℕ) : Dbl :=
  (m.ring v).foldl
    (fun a s =>
      match s.face with
      | none => a
      | some _ =>
        a.add
          (mp.acosD
            (Dbl.cppMax (Dbl.num (-1))
              (Dbl.cppMin (Dbl.num 1)
                (Vec3.dot (normalizeV mp (Vec3.sub (pos s.vert) (pos v)))
                  (normalizeV mp (Vec3.sub (pos s.ccwVert) (pos v))))))))
    (Dbl.num 0)

/-- The boundary-branch accumulation of `TAL_smoothing`: unweighted sum of
`neighbor_pos - pos(v)` over boundary neighbours, counting them. -/
def talBoundaryAccum (m : Mesh) (pos : Pos) (v : ℕ) : Vec3 × Dbl :=
  (m.ring v).foldl
    (fun st s =>
      if m.bnd s.vert then
        (Vec3.add st.1 (Vec3.sub (pos s.vert) (pos v)), st.2.add (Dbl.num 1))
      else st)
    (Vec3.zero, Dbl.num 0)

/-- The interior-branch accumulation of `TAL_smoothing`: sum of
`neighbor_pos - pos(v)` weighted by the neighbour's vertex area, with the
weight sum. -/
def talInteriorAccum (m : Mesh) (pos : Pos) (areas : ℕ → Dbl) (v : ℕ) :
    Vec3 × Dbl :=
  (m.ring v).foldl
    (fun st s =>
      let weight := areas s.vert
      (Vec3.add st.1 (Vec3.smul weight (Vec3.sub (pos s.vert) (pos v))),
        st.2.add weight))
    (Vec3.zero, Dbl.num 0)

/-- The per-vertex Laplacian of `TAL_smoothing`: the boundary branch divides
the boundary accumulation by its count and damps it by
`exp(-3 * sqr(max(0, pi - angle_sum)))`; the interior branch divides the
area-weighted accumulation by its weight sum.  Neither division is guarded. -/
def talLaplacian (mp : MathPrims) (m : Mesh) (pos : Pos) (areas : ℕ → Dbl)
    (v : ℕ) : Vec3 :=
  if m.bnd v then
    let st := talBoundaryAccum m pos v
    Vec3.smul
      (mp.expD
        ((Dbl.num (-3)).mul
          (Dbl.sqr (Dbl.cppMax (Dbl.num 0) ((Dbl.num mPIQ).sub (talAngleSum mp m pos v))))))
      (Vec3.sdiv st.1 st.2)
  else
    let st := talInteriorAccum m pos areas v
    Vec3.sdiv st.1 st.2

/-- One iteration of `TAL_smoothing`: compute all vertex areas, then all
per-vertex Laplacians (both from the frozen entry positions), then apply
`pos(v) += w * laplacian[v]` in place for every vertex. -/
def talIter (mp : MathPrims) (m : Mesh) (w : Dbl) (pos : Pos) : Pos :=
  let areas : ℕ → Dbl := fun v => vertex_area m pos v
  let laps : ℕ → Vec3 := fun v => talLaplacian mp m pos areas v
  fun v => if v ∈ m.verts then Vec3.add (pos v) (Vec3.smul w (laps v)) else pos v

/-- `TAL_smoothing`: `max_iter` sequential iterations of the tangential
area-weighted Laplacian update. -/
def TAL_smoothing (mp : MathPrims) (m : Mesh) (w : Dbl) (maxIter : ℕ) : Pos :=
  (List.range maxIter).foldl (fun pos _ => talIter mp m w pos) m.pos0

theorem length_bucketPush (bs : List (List ℕ)) (i v : ℕ) :
    (bucketPush bs i v).length = bs.length := by
  simp [bucketPush]

theorem count_flatten_bucketPush (bs : List (List ℕ)) (i v x : ℕ)
    (h : i < bs.length) :
    ((bucketPush bs i v).flatten.count x) = bs.flatten.count x + if x = v then 1 else 0 := by
  induction bs generalizing i with
  | nil => simp at h
  | cons b rest ih =>
    cases i with
    | zero =>
      by_cases hxv : x = v
      · simp [bucketPush, List.count_append, List.count_cons, hxv]
        omega
      · simp [bucketPush, List.count_append, List.count_cons, hxv]
    | succ j =>
      have hj : j < rest.length := by simpa using h
      have hih := ih j hj
      simp only [bucketPush] at hih ⊢
      have hgd : ((b :: rest).getD (j+1) [] : List ℕ) = rest.getD j [] := by
        simp [List.getD]
      rw [hgd, List.set_cons_succ, List.flatten_cons, List.flatten_cons,
        List.count_append, List.count_append, hih]
      omega

theorem batch_fold_invariant (m : Mesh) (bsize : ℕ) (l : List ℕ) (cnt : ℕ)
    (bs : List (List ℕ)) (h8 : bs.length = CORES) (res : ℕ × List (List ℕ))
    (hres : l.foldlM (batchStep m bsize) (cnt, bs) = some res) :
    res.2.length = CORES ∧
    ∀ x, res.2.flatten.count x =
      bs.flatten.count x + (l.filter (fun v => !m.bnd v)).count x := by
  induction l generalizing cnt bs with
  | nil =>
    simp only [List.foldlM_nil, Option.pure_def, Option.some.injEq] at hres
    subst hres
    simp [h8]
  | cons v rest ih =>
    simp only [List.foldlM_cons] at hres
    by_cases hbv : m.bnd v
    · simp only [batchStep, hbv, if_true, Option.some_bind] at hres
      obtain ⟨h1, h2⟩ := ih cnt bs h8 hres
      refine ⟨h1, fun x => ?_⟩
      rw [h2 x]
      simp [List.filter_cons, hbv]
    · by_cases hbz : bsize = 0
      · simp [batchStep, hbv, hbz] at hres
      · simp only [batchStep, hbv, if_false, Bool.false_eq_true, hbz,
          if_neg hbz, Option.some_bind] at hres
        have hlt : (cnt / bsize) % CORES < bs.length := by
          rw [h8]; exact Nat.mod_lt _ (by norm_num [CORES])
        obtain ⟨h1, h2⟩ := ih (cnt + 1) (bucketPush bs ((cnt / bsize) % CORES) v)
          (by rw [length_bucketPush, h8]) hres
        refine ⟨h1, fun x => ?_⟩
        rw [h2 x, count_flatten_bucketPush bs _ v x hlt]
        simp only [List.filter_cons, hbv]
        by_cases hxv : x = v
        · simp [hxv, List.count_cons]
          omega
        · simp [hxv, List.count_cons]

theorem count_filter_of_true (l : List ℕ) (p : ℕ → Bool) (v : ℕ) (hp : p v = true) :
    (l.filter p).count v = l.count v := by
  induction l with
  | nil => rfl
  | cons a rest ih =>
    by_cases hav : a = v
    · subst hav; simp [List.filter_cons, hp, List.count_cons, ih]
    · by_cases hpa : p a <;> simp [List.filter_cons, hpa, List.count_cons, hav, ih]

theorem count_filter_of_false (l : List ℕ) (p : ℕ → Bool) (v : ℕ) (hp : p v = false) :
    (l.filter p).count v = 0 := by
  rw [List.count_eq_zero]
  intro hmem
  have h2 := (List.mem_filter.mp hmem).2
  rw [hp] at h2
  exact Bool.false_ne_true h2

/-- C1: the batches produced by `batch_vertices` partition the non-boundary
vertex set exactly: there are `CORES` batches, every non-boundary vertex of
the mesh occurs exactly once across all batches (hence in exactly one batch
and never in two), and no boundary vertex occurs in any batch. -/
theorem batch_vertices_partition (m : Mesh) (bs : List (List ℕ))
    (hnd : m.verts.Nodup) (hbs : batch_vertices m = some bs) :
    bs.length = CORES ∧
    (∀ v, m.bnd v = false → v ∈ m.verts → bs.flatten.count v = 1) ∧
    (∀ v, m.bnd v = true → ∀ b ∈ bs, v ∉ b) := by
  unfold batch_vertices at hbs
  obtain ⟨res, hres, hsnd⟩ := Option.map_eq_some'.mp hbs
  obtain ⟨hlen, hcount⟩ := batch_fold_invariant m (m.verts.length / CORES)
    m.verts 0 (List.replicate CORES []) (by simp) res hres
  subst hsnd
  have h0 : (List.replicate CORES ([] : List ℕ)).flatten = [] := rfl
  refine ⟨hlen, fun v hb hv => ?_, fun v hb b hbmem hvb => ?_⟩
  · rw [hcount v, h0]
    have : (List.filter (fun v => !m.bnd v) m.verts).count v = m.verts.count v :=
      count_filter_of_true _ _ _ (by simp [hb])
    rw [this]
    simpa using List.count_eq_one_of_mem hnd hv
  · have hmemf : v ∈ res.2.flatten := List.mem_flatten.mpr ⟨b, hbmem, hvb⟩
    have hc : res.2.flatten.count v = 0 := by
      rw [hcount v, h0]
      have : (List.filter (fun v => !m.bnd v) m.verts).count v = 0 :=
        count_filter_of_false _ _ _ (by simp [hb])
      simpa using this
    rw [List.count_eq_zero] at hc
    exact hc hmemf

/-- A concrete 8-vertex boundary-free mesh used as the C1 witness input. -/
def meshC1 : Mesh where
  verts := [0, 1, 2, 3, 4, 5, 6, 7]
  bnd := fun _ => false
  pos0 := fun _ => Vec3.zero
  ring := fun _ => []
  faces := []
  fverts := fun _ => []
  vfaces := fun _ => []
  normalF := fun _ _ => Vec3.zero
  areaF := fun _ _ => Dbl.num 0
  centreF := fun _ _ => Vec3.zero
  hedges := []
  hVert := fun h => h
  hOppVert := fun h => h
  hFace := fun _ => none

/-- The batches `batch_vertices` produces on `meshC1`. -/
def batchesC1 : List (List ℕ) := [[0], [1], [2], [3], [4], [5], [6], [7]]

/-- Witness for C1: `batch_vertices` on the concrete mesh `meshC1` yields
`batchesC1`, and the partition properties hold there. -/
theorem batch_vertices_partition_witness :
    meshC1.verts.Nodup ∧
      (batchesC1.length = CORES ∧
        (∀ v, meshC1.bnd v = false → v ∈ meshC1.verts →
          batchesC1.flatten.count v = 1) ∧
        (∀ v, meshC1.bnd v = true → ∀ b ∈ batchesC1, v ∉ b)) :=
  ⟨by decide, batch_vertices_partition meshC1 batchesC1 (by decide) (by decide)⟩

theorem batch_fold_some_of_pos (m : Mesh) (bsize : ℕ) (hbz : bsize ≠ 0)
    (l : List ℕ) :
    ∀ st, (l.foldlM (batchStep m bsize) st).isSome = true := by
  induction l with
  | nil => intro st; rfl
  | cons v rest ih =>
    intro st
    simp only [List.foldlM_cons]
    by_cases hbv : m.bnd v
    · simp only [batchStep, hbv, if_true, Option.some_bind]
      exact ih _
    · simp only [batchStep, hbv, Bool.false_eq_true, if_false, if_neg hbz,
        Option.some_bind]
      exact ih _

theorem batch_fold_none_of_zero (m : Mesh) (l : List ℕ) (v : ℕ)
    (hv : v ∈ l) (hbv : m.bnd v = false) :
    ∀ st, l.foldlM (batchStep m 0) st = none := by
  induction l with
  | nil => cases hv
  | cons a rest ih =>
    intro st
    simp only [List.foldlM_cons]
    by_cases hba : m.bnd a
    · simp only [batchStep, hba, if_true, Option.some_bind]
      have hvr : v ∈ rest := by
        rcases List.mem_cons.mp hv with h | h
        · subst h; rw [hba] at hbv; cases hbv
        · exact h
      exact ih hvr _
    · simp [batchStep, hba]

theorem batch_fold_some_of_all_bnd (m : Mesh) (bsize : ℕ) (l : List ℕ)
    (hall : ∀ v ∈ l, m.bnd v = true) :
    ∀ st, l.foldlM (batchStep m bsize) st = some st := by
  induction l with
  | nil => intro st; rfl
  | cons a rest ih =>
    intro st
    have hba := hall a (List.mem_cons_self a rest)
    simp only [List.foldlM_cons, batchStep, hba, if_true, Option.some_bind]
    exact ih (fun v hv => hall v (List.mem_cons_of_mem a hv)) st

/-- C10 (amended): the batch-index computation is well-defined precisely when
the mesh has at least `CORES` vertices or no non-boundary vertex at all: the
division by `batch_size` executes only for accepted (non-boundary) vertices. -/
theorem batch_vertices_isSome_iff (m : Mesh) :
    (batch_vertices m).isSome = true ↔
      (CORES ≤ m.verts.length ∨ ∀ v ∈ m.verts, m.bnd v = true) := by
  have hmap : ∀ (o : Option (ℕ × List (List ℕ))),
      (Option.map Prod.snd o).isSome = o.isSome := fun o => by cases o <;> rfl
  unfold batch_vertices
  show (Option.map Prod.snd (List.foldlM (batchStep m (m.verts.length / CORES))
    (0, List.replicate CORES []) m.verts)).isSome = true ↔ _
  rw [hmap]
  constructor
  · intro h
    by_contra hc
    push_neg at hc
    obtain ⟨h1, v, hv, hbv⟩ := hc
    have hbz : m.verts.length / CORES = 0 := Nat.div_eq_of_lt (by omega)
    rw [hbz, batch_fold_none_of_zero m m.verts v hv
      (Bool.not_eq_true _ ▸ hbv)] at h
    cases h
  · intro h
    rcases h with h | h
    · exact batch_fold_some_of_pos m _
        (by
          have : 0 < m.verts.length / CORES :=
            Nat.div_pos h (by norm_num [CORES])
          omega)
        m.verts _
    · rw [batch_fold_some_of_all_bnd m _ m.verts h]
      rfl

/-- A 1-vertex mesh whose single vertex is on the boundary. -/
def meshC10 : Mesh where
  verts := [0]
  bnd := fun _ => true
  pos0 := fun _ => Vec3.zero
  ring := fun _ => []
  faces := []
  fverts := fun _ => []
  vfaces := fun _ => []
  normalF := fun _ _ => Vec3.zero
  areaF := fun _ _ => Dbl.num 0
  centreF := fun _ _ => Vec3.zero
  hedges := []
  hVert := fun h => h
  hOppVert := fun h => h
  hFace := fun _ => none

/-- C10 counterexample: on a 1-vertex all-boundary mesh the batch loop never
divides, so batching is well-defined although the mesh has fewer than `CORES`
vertices — the claimed "if and only if" fails in the only-if direction. -/
theorem batch_vertices_wellDefined_iff_counterexample :
    ¬ (((batch_vertices meshC10).isSome = true) ↔
      CORES ≤ meshC10.verts.length) := by
  decide

theorem dbl_add_commutes (a b : Dbl) : a.add b = b.add a := by
  cases a <;> cases b <;> simp [Dbl.add, ratAdd_eq, Rat.add_comm]

theorem vec3_add_commutes (u v : Vec3) : Vec3.add u v = Vec3.add v u := by
  simp [Vec3.add, dbl_add_commutes]

theorem foldl_setPos_at (val : ℕ → Vec3) (l : List ℕ) (scr : Pos) (v : ℕ) :
    (l.foldl (fun s u => setPos s u (val u)) scr) v =
      if v ∈ l then val v else scr v := by
  induction l generalizing scr with
  | nil => simp
  | cons a rest ih =>
    simp only [List.foldl_cons, ih]
    by_cases hvr : v ∈ rest
    · simp [hvr, List.mem_cons]
    · by_cases hva : v = a
      · subst hva; simp [hvr, setPos]
      · simp [hvr, hva, setPos, List.mem_cons]

theorem foldl_guarded_setPos_at (bndf : ℕ → Bool) (val : ℕ → Vec3) (l : List ℕ)
    (scr : Pos) (v : ℕ) :
    (l.foldl (fun s u => if bndf u then s else setPos s u (val u)) scr) v =
      if v ∈ l ∧ bndf v = false then val v else scr v := by
  induction l generalizing scr with
  | nil => simp
  | cons a rest ih =>
    simp only [List.foldl_cons]
    by_cases hba : bndf a
    · rw [if_pos hba, ih]
      by_cases hvr : v ∈ rest ∧ bndf v = false
      · simp [hvr, List.mem_cons, hvr.1, hvr.2]
      · rw [if_neg hvr, if_neg]
        intro hcon
        rcases List.mem_cons.mp hcon.1 with h | h
        · subst h; rw [hba] at hcon; simp at hcon
        · exact hvr ⟨h, hcon.2⟩
    · rw [if_neg hba, ih]
      by_cases hvr : v ∈ rest ∧ bndf v = false
      · simp [hvr, List.mem_cons, hvr.1, hvr.2]
      · rw [if_neg hvr]
        by_cases hva : v = a
        · subst hva
          rw [if_pos ⟨List.mem_cons_self v rest, Bool.not_eq_true _ ▸ hba⟩]
          simp [setPos]
        · rw [if_neg, setPos, if_neg hva]
          intro hcon
          rcases List.mem_cons.mp hcon.1 with h | h
          · exact hva h
          · exact hvr ⟨h, hcon.2⟩

theorem taubin_smooth_eq_state (m : Mesh) (n : ℕ) :
    ((List.range n).foldl (fun st i => taubinSub m i st) (m.pos0, m.pos0)) =
      taubinState m n := by
  induction n with
  | zero => rfl
  | succ k ih => rw [List.range_succ, List.foldl_append, ih]; rfl

/-- C4: `taubin_smooth` performs exactly `2*max_iter` sub-iterations — it
returns the live buffer of the `2*max_iter`-th state of the sub-iteration
trace `taubinState`; every sub-iteration `k` writes, for each non-boundary
vertex `v` of the mesh, `new_pos[v] = pos(v) + s * laplacian(m, v)` with step
`s = +0.5` for even `k` and `s = -0.52` for odd `k`, and swaps the scratch and
live buffers (the new scratch buffer is the previous live one). -/
theorem taubin_smooth_subiterations (m : Mesh) (maxIter : ℕ) :
    taubin_smooth m maxIter = (taubinState m (2 * maxIter)).1 ∧
    ∀ k,
      (taubinState m (k + 1)).2 = (taubinState m k).1 ∧
      ∀ v, v ∈ m.verts → m.bnd v = false →
        (taubinState m (k + 1)).1 v =
          Vec3.add ((taubinState m k).1 v)
            (Vec3.smul (if k % 2 = 0 then Dbl.num (mkRat 1 2) else Dbl.num (mkRat (-13) 25))
              (laplacian m (taubinState m k).1 v)) := by
  refine ⟨?_, fun k => ⟨rfl, fun v hv hb => ?_⟩⟩
  · unfold taubin_smooth
    rw [taubin_smooth_eq_state]
  · show (m.verts.foldl
        (fun s u =>
          if m.bnd u then s
          else
            setPos s u
              (Vec3.add
                (Vec3.smul (if k % 2 = 0 then Dbl.num (mkRat 1 2) else Dbl.num (mkRat (-13) 25))
                  (laplacian m (taubinState m k).1 u))
                ((taubinState m k).1 u)))
        (taubinState m k).2) v = _
    rw [foldl_guarded_setPos_at m.bnd
      (fun u =>
        Vec3.add
          (Vec3.smul (if k % 2 = 0 then Dbl.num (mkRat 1 2) else Dbl.num (mkRat (-13) 25))
            (laplacian m (taubinState m k).1 u))
          ((taubinState m k).1 u))]
    rw [if_pos ⟨hv, hb⟩, vec3_add_commutes]

/-- Witness for C4 on the concrete mesh `meshC1` with `max_iter = 1` at
sub-iteration `k = 0` and vertex `0`. -/
theorem taubin_smooth_subiterations_witness :
    taubin_smooth meshC1 1 = (taubinState meshC1 2).1 ∧
    (taubinState meshC1 1).2 = (taubinState meshC1 0).1 ∧
    (0 : ℕ) ∈ meshC1.verts ∧ meshC1.bnd 0 = false ∧
    (taubinState meshC1 1).1 0 =
      Vec3.add ((taubinState meshC1 0).1 0)
        (Vec3.smul (Dbl.num (mkRat 1 2)) (laplacian meshC1 (taubinState meshC1 0).1 0)) :=
  ⟨(taubin_smooth_subiterations meshC1 1).1,
    ((taubin_smooth_subiterations meshC1 1).2 0).1,
    by decide, by decide,
    ((taubin_smooth_subiterations meshC1 1).2 0).2 0 (by decide) (by decide)⟩

theorem batch_vertices_not_boundary_mem (m : Mesh) (bs : List (List ℕ))
    (hbs : batch_vertices m = some bs) (v : ℕ) (hb : m.bnd v = true) :
    ∀ b ∈ bs, v ∉ b := by
  unfold batch_vertices at hbs
  obtain ⟨res, hres, hsnd⟩ := Option.map_eq_some'.mp hbs
  obtain ⟨hlen, hcount⟩ := batch_fold_invariant m (m.verts.length / CORES)
    m.verts 0 (List.replicate CORES []) (by simp) res hres
  subst hsnd
  intro b hbmem hvb
  have hmemf : v ∈ res.2.flatten := List.mem_flatten.mpr ⟨b, hbmem, hvb⟩
  have hc : res.2.flatten.count v = 0 := by
    rw [hcount v]
    have h0 : (List.replicate CORES ([] : List ℕ)).flatten = [] := rfl
    rw [h0]
    have hcf : (List.filter (fun v => !m.bnd v) m.verts).count v = 0 :=
      count_filter_of_false _ _ _ (by simp [hb])
    simpa using hcf
  rw [List.count_eq_zero] at hc
  exact hc hmemf

theorem lapWorker_at_not_mem (m : Mesh) (weight : Dbl) (cur scratch : Pos)
    (vids : List ℕ) (v : ℕ) (hv : v ∉ vids) :
    lapWorker m weight cur scratch vids v = scratch v := by
  unfold lapWorker
  rw [foldl_setPos_at (fun u => Vec3.add (cur u) (Vec3.smul weight (laplacian m cur u)))]
  simp [hv]

theorem lapBatches_at_not_mem (m : Mesh) (weight : Dbl) (cur scr : Pos)
    (batches : List (List ℕ)) (v : ℕ) (h : ∀ b ∈ batches, v ∉ b) :
    (batches.foldl (lapWorker m weight cur) scr) v = scr v := by
  induction batches generalizing scr with
  | nil => rfl
  | cons b rest ih =>
    simp only [List.foldl_cons]
    rw [ih _ (fun c hc => h c (List.mem_cons_of_mem b hc)),
      lapWorker_at_not_mem m weight cur scr b v (h b (List.mem_cons_self b rest))]

theorem lapState_at_not_mem (m : Mesh) (weight : Dbl)
    (batches : List (List ℕ)) (v : ℕ) (h : ∀ b ∈ batches, v ∉ b) (n : ℕ) :
    (((List.range n).foldl (fun st _ => lapIter m weight batches st)
        (m.pos0, m.pos0)).1 v = m.pos0 v) ∧
    (((List.range n).foldl (fun st _ => lapIter m weight batches st)
        (m.pos0, m.pos0)).2 v = m.pos0 v) := by
  induction n with
  | zero => exact ⟨rfl, rfl⟩
  | succ k ih =>
    rw [List.range_succ, List.foldl_append]
    refine ⟨?_, ih.1⟩
    show (List.foldl (lapWorker m weight _) _ batches) v = m.pos0 v
    rw [lapBatches_at_not_mem m weight _ _ batches v h]
    exact ih.2

theorem taubinState_boundary (m : Mesh) (v : ℕ) (hb : m.bnd v = true) (n : ℕ) :
    (taubinState m n).1 v = m.pos0 v ∧ (taubinState m n).2 v = m.pos0 v := by
  induction n with
  | zero => exact ⟨rfl, rfl⟩
  | succ k ih =>
    refine ⟨?_, ih.1⟩
    show (m.verts.foldl
        (fun s u =>
          if m.bnd u then s
          else
            setPos s u
              (Vec3.add
                (Vec3.smul (if k % 2 = 0 then Dbl.num (mkRat 1 2) else Dbl.num (mkRat (-13) 25))
                  (laplacian m (taubinState m k).1 u))
                ((taubinState m k).1 u)))
        (taubinState m k).2) v = m.pos0 v
    rw [foldl_guarded_setPos_at m.bnd
      (fun u =>
        Vec3.add
          (Vec3.smul (if k % 2 = 0 then Dbl.num (mkRat 1 2) else Dbl.num (mkRat (-13) 25))
            (laplacian m (taubinState m k).1 u))
          ((taubinState m k).1 u))]
    rw [if_neg]
    · exact ih.2
    · rintro ⟨-, hc⟩
      rw [hb] at hc
      cases hc

/-- C6: neither `laplacian_smooth` nor `taubin_smooth` ever moves a boundary
vertex — for every mesh, weight and iteration count, the position of a
boundary vertex after the call is exactly its original position. -/
theorem smooth_boundary_fixed (m : Mesh) (weight : Dbl) (maxIter : ℕ) (v : ℕ)
    (hb : m.bnd v = true) :
    (∀ p, laplacian_smooth m weight maxIter = some p → p v = m.pos0 v) ∧
    taubin_smooth m maxIter v = m.pos0 v := by
  constructor
  · intro p hp
    unfold laplacian_smooth at hp
    obtain ⟨bs, hbs, hres⟩ := Option.map_eq_some'.mp hp
    subst hres
    exact (lapState_at_not_mem m weight bs v
      (batch_vertices_not_boundary_mem m bs hbs v hb) maxIter).1
  · unfold taubin_smooth
    rw [taubin_smooth_eq_state]
    exact (taubinState_boundary m v hb (2 * maxIter)).1

/-- The position buffer `laplacian_smooth` produces on `meshC10`. -/
def lapResC10 : Pos :=
  (laplacian_smooth meshC10 (Dbl.num 1) 1).getD (fun _ => Vec3.zero)

/-- Witness for C6 on the concrete all-boundary mesh `meshC10`: vertex `0` is
a boundary vertex, `laplacian_smooth` succeeds, and both algorithms leave its
position unchanged. -/
theorem smooth_boundary_fixed_witness :
    meshC10.bnd 0 = true ∧
    laplacian_smooth meshC10 (Dbl.num 1) 1 = some lapResC10 ∧
    lapResC10 0 = meshC10.pos0 0 ∧
    taubin_smooth meshC10 1 0 = meshC10.pos0 0 :=
  ⟨rfl, rfl,
    (smooth_boundary_fixed meshC10 (Dbl.num 1) 1 0 rfl).1 lapResC10 rfl,
    (smooth_boundary_fixed meshC10 (Dbl.num 1) 1 0 rfl).2⟩

theorem foldl_prod_split {α β γ : Type} (f : α → γ → α) (g : β → γ → β)
    (l : List γ) (a : α) (b : β) :
    l.foldl (fun st s => (f st.1 s, g st.2 s)) (a, b) = (l.foldl f a, l.foldl g b) := by
  induction l generalizing a b with
  | nil => rfl
  | cons c rest ih => simp only [List.foldl_cons]; exact ih (f a c) (g b c)

theorem cotAccum_split (mp : MathPrims) (m : Mesh) (pos : Pos) (v : ℕ) :
    cotAccum mp m pos v =
      (((m.ring v).map (fun s => Vec3.smul (cotWedgeW mp pos (pos v) s) (pos s.vert))).foldl
          Vec3.add Vec3.zero,
        ((m.ring v).map (fun s => cotWedgeW mp pos (pos v) s)).foldl Dbl.add (Dbl.num 0)) := by
  show (m.ring v).foldl
      (fun st s =>
        (Vec3.add st.1 (Vec3.smul (cotWedgeW mp pos (pos v) s) (pos s.vert)),
          st.2.add (cotWedgeW mp pos (pos v) s)))
      (Vec3.zero, Dbl.num 0) = _
  rw [foldl_prod_split
    (fun a s => Vec3.add a (Vec3.smul (cotWedgeW mp pos (pos v) s) (pos s.vert)))
    (fun b s => b.add (cotWedgeW mp pos (pos v) s)) (m.ring v) Vec3.zero (Dbl.num 0)]
  rw [List.foldl_map, List.foldl_map]

/-- C5: for a vertex whose one-ring is non-degenerate — the accumulated
weight sum not below `1e-20` and no accumulated NaN component, i.e. the final
guard does not fire — `cot_laplacian` equals
`(Σ w·neighbor_pos)/(Σ w) - position(v)` where each wedge contributes the
weight `cotWedgeW`, i.e. `sin(a_left + a_right)/(1e-10 + sin(a_left)·sin(a_right))`
with the two angles obtained by `acos` of clamped dot products of the
safely-normalized edge vectors. -/
theorem cot_laplacian_formula (mp : MathPrims) (m : Mesh) (pos : Pos) (v : ℕ)
    (hguard : (Dbl.lt (cotAccum mp m pos v).2 (Dbl.num (mkRat 1 100000000000000000000))
      || (cotAccum mp m pos v).1.x.isNan || (cotAccum mp m pos v).1.y.isNan
      || (cotAccum mp m pos v).1.z.isNan) = false) :
    cot_laplacian mp m pos v =
      Vec3.sub
        (Vec3.sdiv
          (((m.ring v).map (fun s => Vec3.smul (cotWedgeW mp pos (pos v) s) (pos s.vert))).foldl
            Vec3.add Vec3.zero)
          (((m.ring v).map (fun s => cotWedgeW mp pos (pos v) s)).foldl Dbl.add (Dbl.num 0)))
        (pos v) := by
  unfold cot_laplacian
  simp only [Bool.or_eq_false_iff] at hguard
  obtain ⟨⟨⟨h1, h2⟩, h3⟩, h4⟩ := hguard
  rw [cotAccum_split] at h1 h2 h3 h4 ⊢
  simp only [h1, h2, h3, h4, Bool.or_self, if_false]
  rfl

/-- The concrete transcendental instantiation used by witnesses:
`sin ≡ 1`, `acos ≡ 0`, `sqrt ≡ 1`, `exp ≡ 1`. -/
def mpW : MathPrims where
  sqrtD := fun _ => Dbl.num 1
  expD := fun _ => Dbl.num 1
  sinD := fun _ => Dbl.num 1
  acosD := fun _ => Dbl.num 0

/-- Finite positions for the C5 witness mesh. -/
def posC5 : Pos := fun u =>
  if u = 1 then ⟨Dbl.num 1, Dbl.num 0, Dbl.num 0⟩
  else if u = 2 then ⟨Dbl.num 0, Dbl.num 1, Dbl.num 0⟩
  else if u = 3 then ⟨Dbl.num 0, Dbl.num 0, Dbl.num 1⟩
  else Vec3.zero

/-- A concrete mesh whose vertex `0` has a single one-ring wedge with finite
positions. -/
def meshC5 : Mesh where
  verts := [0, 1, 2, 3]
  bnd := fun _ => false
  pos0 := posC5
  ring := fun u => if u = 0 then [⟨1, 2, 3, 1, none⟩] else []
  faces := []
  fverts := fun _ => []
  vfaces := fun _ => []
  normalF := fun _ _ => Vec3.zero
  areaF := fun _ _ => Dbl.num 0
  centreF := fun _ _ => Vec3.zero
  hedges := []
  hVert := fun h => h
  hOppVert := fun h => h
  hFace := fun _ => none

/-- Witness for C5 on `meshC5` with the concrete primitives `mpW`: the guard
is off and the formula holds. -/
theorem cot_laplacian_formula_witness :
    (Dbl.lt (cotAccum mpW meshC5 meshC5.pos0 0).2 (Dbl.num (mkRat 1 100000000000000000000))
      || (cotAccum mpW meshC5 meshC5.pos0 0).1.x.isNan
      || (cotAccum mpW meshC5 meshC5.pos0 0).1.y.isNan
      || (cotAccum mpW meshC5 meshC5.pos0 0).1.z.isNan) = false ∧
    cot_laplacian mpW meshC5 meshC5.pos0 0 =
      Vec3.sub
        (Vec3.sdiv
          (((meshC5.ring 0).map
            (fun s => Vec3.smul (cotWedgeW mpW meshC5.pos0 (meshC5.pos0 0) s) (meshC5.pos0 s.vert))).foldl
            Vec3.add Vec3.zero)
          (((meshC5.ring 0).map (fun s => cotWedgeW mpW meshC5.pos0 (meshC5.pos0 0) s)).foldl
            Dbl.add (Dbl.num 0)))
        (meshC5.pos0 0) :=
  ⟨by decide, cot_laplacian_formula mpW meshC5 meshC5.pos0 0 (by decide)⟩

theorem dbl_add_finite {a b : Dbl} (ha : a.isFinite = true)
    (hb : b.isFinite = true) : (a.add b).isFinite = true := by
  cases a <;> cases b <;> simp_all [Dbl.add, Dbl.isFinite]

theorem dbl_neg_finite {a : Dbl} (ha : a.isFinite = true) :
    a.neg.isFinite = true := by
  cases a <;> simp_all [Dbl.neg, Dbl.isFinite]

theorem dbl_sub_finite {a b : Dbl} (ha : a.isFinite = true)
    (hb : b.isFinite = true) : (a.sub b).isFinite = true :=
  dbl_add_finite ha (dbl_neg_finite hb)

theorem dbl_mul_finite {a b : Dbl} (ha : a.isFinite = true)
    (hb : b.isFinite = true) : (a.mul b).isFinite = true := by
  cases a <;> cases b <;> simp_all [Dbl.mul, Dbl.isFinite]

theorem dbl_div_finite {a b : Dbl} (ha : a.isFinite = true)
    (hb : b.isFinite = true) (hq : ∀ q : ℚ, b = Dbl.num q → q.num ≠ 0) :
    (a.div b).isFinite = true := by
  cases a with
  | num qa =>
    cases b with
    | num qb => simp [Dbl.div, hq qb rfl, Dbl.isFinite]
    | inf => cases hb
    | ninf => cases hb
    | nan => cases hb
  | inf => cases ha
  | ninf => cases ha
  | nan => cases ha

theorem vec3_finite_parts {v : Vec3} (h : v.allFinite = true) :
    v.x.isFinite = true ∧ v.y.isFinite = true ∧ v.z.isFinite = true := by
  simp [Vec3.allFinite] at h
  exact ⟨h.1.1, h.1.2, h.2⟩

theorem vec3_finite_mk {v : Vec3} (hx : v.x.isFinite = true)
    (hy : v.y.isFinite = true) (hz : v.z.isFinite = true) :
    v.allFinite = true := by
  simp [Vec3.allFinite, hx, hy, hz]

theorem vec3_add_finite {u v : Vec3} (hu : u.allFinite = true)
    (hv : v.allFinite = true) : (Vec3.add u v).allFinite = true := by
  obtain ⟨h1, h2, h3⟩ := vec3_finite_parts hu
  obtain ⟨h4, h5, h6⟩ := vec3_finite_parts hv
  exact vec3_finite_mk (dbl_add_finite h1 h4) (dbl_add_finite h2 h5)
    (dbl_add_finite h3 h6)

theorem vec3_sub_finite {u v : Vec3} (hu : u.allFinite = true)
    (hv : v.allFinite = true) : (Vec3.sub u v).allFinite = true := by
  obtain ⟨h1, h2, h3⟩ := vec3_finite_parts hu
  obtain ⟨h4, h5, h6⟩ := vec3_finite_parts hv
  exact vec3_finite_mk (dbl_sub_finite h1 h4) (dbl_sub_finite h2 h5)
    (dbl_sub_finite h3 h6)

theorem vec3_smul_finite {s : Dbl} {v : Vec3} (hs : s.isFinite = true)
    (hv : v.allFinite = true) : (Vec3.smul s v).allFinite = true := by
  obtain ⟨h1, h2, h3⟩ := vec3_finite_parts hv
  exact vec3_finite_mk (dbl_mul_finite hs h1) (dbl_mul_finite hs h2)
    (dbl_mul_finite hs h3)

theorem vec3_sdiv_finite {v : Vec3} {s : Dbl} (hv : v.allFinite = true)
    (hs : s.isFinite = true) (hq : ∀ q : ℚ, s = Dbl.num q → q.num ≠ 0) :
    (Vec3.sdiv v s).allFinite = true := by
  obtain ⟨h1, h2, h3⟩ := vec3_finite_parts hv
  exact vec3_finite_mk (dbl_div_finite h1 hs hq) (dbl_div_finite h2 hs hq)
    (dbl_div_finite h3 hs hq)

theorem cot_weight_expr_finite (mp : MathPrims) (A B : Dbl)
    (hsin : ∀ x, ∃ q : ℚ, 0 ≤ q ∧ mp.sinD x = Dbl.num q) :
    ∃ q : ℚ,
      Dbl.div (mp.sinD (A.add B))
        ((Dbl.num (mkRat 1 10000000000)).add ((mp.sinD A).mul (mp.sinD B))) =
      Dbl.num q := by
  obtain ⟨q1, hq1pos, hq1⟩ := hsin A
  obtain ⟨q2, hq2pos, hq2⟩ := hsin B
  obtain ⟨s1, -, hs1⟩ := hsin (A.add B)
  rw [hq1, hq2, hs1]
  have hD : ((Dbl.num (mkRat 1 10000000000)).add ((Dbl.num q1).mul (Dbl.num q2))) =
      Dbl.num (mkRat 1 10000000000 + q1 * q2) := by
    simp [Dbl.add, Dbl.mul, ratAdd_eq, ratMul_eq]
  rw [hD]
  have hpos : 0 < mkRat 1 10000000000 + q1 * q2 := by
    have h1 : (0 : ℚ) < mkRat 1 10000000000 := by
      rw [Rat.mkRat_eq_div]; norm_num
    have h2 : (0 : ℚ) ≤ q1 * q2 := mul_nonneg hq1pos hq2pos
    linarith
  have hne : (mkRat 1 10000000000 + q1 * q2).num ≠ 0 := by
    have := Rat.num_pos.mpr hpos
    omega
  exact ⟨ratDiv s1 (mkRat 1 10000000000 + q1 * q2), by simp [Dbl.div, hne]⟩

theorem cotWedgeW_num (mp : MathPrims) (pos : Pos) (vp : Vec3) (s : RingStep)
    (hsin : ∀ x, ∃ q : ℚ, 0 ≤ q ∧ mp.sinD x = Dbl.num q) :
    ∃ q : ℚ, cotWedgeW mp pos vp s = Dbl.num q := by
  unfold cotWedgeW
  exact cot_weight_expr_finite mp _ _ hsin

theorem cotAccum_finite (mp : MathPrims) (m : Mesh) (pos : Pos) (v : ℕ)
    (hpos : ∀ u, (pos u).allFinite = true)
    (hsin : ∀ x, ∃ q : ℚ, 0 ≤ q ∧ mp.sinD x = Dbl.num q) :
    (cotAccum mp m pos v).1.allFinite = true ∧
    (cotAccum mp m pos v).2.isFinite = true := by
  unfold cotAccum
  suffices h : ∀ (l : List RingStep) (p : Vec3) (w : Dbl),
      p.allFinite = true → w.isFinite = true →
      ((l.foldl
        (fun st s =>
          (Vec3.add st.1 (Vec3.smul (cotWedgeW mp pos (pos v) s) (pos s.vert)),
            st.2.add (cotWedgeW mp pos (pos v) s)))
        (p, w)).1.allFinite = true ∧
      (l.foldl
        (fun st s =>
          (Vec3.add st.1 (Vec3.smul (cotWedgeW mp pos (pos v) s) (pos s.vert)),
            st.2.add (cotWedgeW mp pos (pos v) s)))
        (p, w)).2.isFinite = true) by
    exact h (m.ring v) Vec3.zero (Dbl.num 0) rfl rfl
  intro l
  induction l with
  | nil => intro p w hp hw; exact ⟨hp, hw⟩
  | cons s rest ih =>
    intro p w hp hw
    simp only [List.foldl_cons]
    obtain ⟨q, hq⟩ := cotWedgeW_num mp pos (pos v) s hsin
    exact ih _ _
      (vec3_add_finite hp (vec3_smul_finite (by rw [hq]; rfl) (hpos s.vert)))
      (dbl_add_finite hw (by rw [hq]; rfl))

theorem dbl_lt_num_eq (a b : ℚ) :
    Dbl.lt (Dbl.num a) (Dbl.num b) = decide (a < b) := rfl

/-- C3 (amended): `cot_laplacian` returns the zero vector whenever the
accumulated weight sum is below `1e-20` or any accumulated component is NaN —
the code screens NaN only, so a `±∞` component with an adequate weight sum
passes through (see the counterexample); and with finite positions and
finite, nonnegative real-valued `sin`, the result is always finite — in
particular never NaN or `±∞` for a vertex adjacent to a zero-area degenerate
triangle. -/
theorem cot_laplacian_guard_and_finite (mp : MathPrims) (m : Mesh) (pos : Pos)
    (v : ℕ) :
    ((Dbl.lt (cotAccum mp m pos v).2 (Dbl.num (mkRat 1 100000000000000000000))
        || (cotAccum mp m pos v).1.x.isNan || (cotAccum mp m pos v).1.y.isNan
        || (cotAccum mp m pos v).1.z.isNan) = true →
      cot_laplacian mp m pos v = Vec3.zero) ∧
    ((∀ u, (pos u).allFinite = true) →
      (∀ x, ∃ q : ℚ, 0 ≤ q ∧ mp.sinD x = Dbl.num q) →
      (cot_laplacian mp m pos v).allFinite = true) := by
  constructor
  · intro h
    unfold cot_laplacian
    simp only [h, if_true]
  · intro hpos hsin
    obtain ⟨hp, hw⟩ := cotAccum_finite mp m pos v hpos hsin
    unfold cot_laplacian
    by_cases hg : (Dbl.lt (cotAccum mp m pos v).2
        (Dbl.num (mkRat 1 100000000000000000000))
        || (cotAccum mp m pos v).1.x.isNan || (cotAccum mp m pos v).1.y.isNan
        || (cotAccum mp m pos v).1.z.isNan) = true
    · simp only [hg, if_true]
      rfl
    · rw [if_neg hg]
      apply vec3_sub_finite _ (hpos v)
      apply vec3_sdiv_finite hp hw
      intro q hq
      have hgf := (Bool.not_eq_true _).mp hg
      simp only [Bool.or_eq_false_iff] at hgf
      have hlt := hgf.1.1.1
      rw [hq] at hlt
      have hlt2 := hlt
      rw [dbl_lt_num_eq, decide_eq_false_iff_not, not_lt] at hlt2
      have hqpos : 0 < q := by
        have heps : (0 : ℚ) < mkRat 1 100000000000000000000 := by
          rw [Rat.mkRat_eq_div]; norm_num
        linarith
      have := Rat.num_pos.mpr hqpos
      omega

/-- Positions for the C3 counterexample mesh: the neighbour vertex `1` sits
at `+∞` on the x axis. -/
def posC3 : Pos := fun u =>
  if u = 1 then ⟨Dbl.inf, Dbl.num 0, Dbl.num 0⟩
  else if u = 2 then ⟨Dbl.num 0, Dbl.num 1, Dbl.num 0⟩
  else if u = 3 then ⟨Dbl.num 0, Dbl.num 0, Dbl.num 1⟩
  else Vec3.zero

/-- The C3 counterexample mesh: vertex `0` has one wedge whose neighbour
position is infinite. -/
def meshC3 : Mesh where
  verts := [0, 1, 2, 3]
  bnd := fun _ => false
  pos0 := posC3
  ring := fun u => if u = 0 then [⟨1, 2, 3, 1, none⟩] else []
  faces := []
  fverts := fun _ => []
  vfaces := fun _ => []
  normalF := fun _ _ => Vec3.zero
  areaF := fun _ _ => Dbl.num 0
  centreF := fun _ _ => Vec3.zero
  hedges := []
  hVert := fun h => h
  hOppVert := fun h => h
  hFace := fun _ => none

/-- C3 counterexample: at vertex `0` of `meshC3` the accumulated weighted sum
has a non-finite x component that is not NaN (it is `+∞`), the weight sum is
far above `1e-20`, and `cot_laplacian` returns a vector whose x component is
`+∞` rather than the zero vector: the guard checks `isnan` only, not
non-finiteness. -/
theorem cot_laplacian_nonfinite_counterexample :
    (cotAccum mpW meshC3 meshC3.pos0 0).1.x.isFinite = false ∧
    (cotAccum mpW meshC3 meshC3.pos0 0).1.x.isNan = false ∧
    Dbl.lt (cotAccum mpW meshC3 meshC3.pos0 0).2
      (Dbl.num (mkRat 1 100000000000000000000)) = false ∧
    cot_laplacian mpW meshC3 meshC3.pos0 0 ≠ Vec3.zero ∧
    (cot_laplacian mpW meshC3 meshC3.pos0 0).x = Dbl.inf := by
  decide

/-- Witness for C3 (amended): on the empty-ring mesh the guard fires and the
result is the zero vector; on the finite mesh `meshC5` with the concrete
primitives `mpW` the result is finite. -/
theorem cot_laplacian_guard_and_finite_witness :
    (Dbl.lt (cotAccum mpW meshC10 meshC10.pos0 0).2
        (Dbl.num (mkRat 1 100000000000000000000))
      || (cotAccum mpW meshC10 meshC10.pos0 0).1.x.isNan
      || (cotAccum mpW meshC10 meshC10.pos0 0).1.y.isNan
      || (cotAccum mpW meshC10 meshC10.pos0 0).1.z.isNan) = true ∧
    cot_laplacian mpW meshC10 meshC10.pos0 0 = Vec3.zero ∧
    (cot_laplacian mpW meshC5 meshC5.pos0 0).allFinite = true :=
  ⟨by decide,
    (cot_laplacian_guard_and_finite mpW meshC10 meshC10.pos0 0).1 (by decide),
    (cot_laplacian_guard_and_finite mpW meshC5 meshC5.pos0 0).2
      (by
        intro u
        unfold meshC5 posC5
        simp only
        split_ifs <;> decide)
      (fun x => ⟨1, by norm_num, rfl⟩)⟩

theorem foldl_preserve {α β : Type} (P : α → Prop) (f : α → β → α) (l : List β)
    (hstep : ∀ a b, P a → P (f a b)) : ∀ a, P a → P (l.foldl f a) := by
  induction l with
  | nil => exact fun a ha => ha
  | cons c rest ih => exact fun a ha => ih _ (hstep a c ha)

theorem vertex_area_finite (m : Mesh) (pos : Pos) (v : ℕ)
    (harea : ∀ f, (m.areaF pos f).isFinite = true) :
    (vertex_area m pos v).isFinite = true := by
  unfold vertex_area
  refine foldl_preserve (fun (a : Dbl) => a.isFinite = true) _ (m.ring v) ?_ _ rfl
  intro a s ha
  cases s.face with
  | none => exact ha
  | some f => exact dbl_add_finite ha (harea f)

theorem talInteriorAccum_finite (m : Mesh) (pos : Pos) (areas : ℕ → Dbl)
    (v : ℕ) (hpos : ∀ u, (pos u).allFinite = true)
    (hareas : ∀ u, (areas u).isFinite = true) :
    (talInteriorAccum m pos areas v).1.allFinite = true ∧
    (talInteriorAccum m pos areas v).2.isFinite = true := by
  unfold talInteriorAccum
  refine foldl_preserve
    (fun (st : Vec3 × Dbl) => st.1.allFinite = true ∧ st.2.isFinite = true) _
    (m.ring v) ?_ _ ⟨rfl, rfl⟩
  intro st s hst
  exact ⟨vec3_add_finite hst.1
      (vec3_smul_finite (hareas s.vert) (vec3_sub_finite (hpos s.vert) (hpos v))),
    dbl_add_finite hst.2 (hareas s.vert)⟩

theorem talBoundaryAccum_finite (m : Mesh) (pos : Pos) (v : ℕ)
    (hpos : ∀ u, (pos u).allFinite = true) :
    (talBoundaryAccum m pos v).1.allFinite = true ∧
    (talBoundaryAccum m pos v).2.isFinite = true := by
  unfold talBoundaryAccum
  refine foldl_preserve
    (fun (st : Vec3 × Dbl) => st.1.allFinite = true ∧ st.2.isFinite = true) _
    (m.ring v) ?_ _ ⟨rfl, rfl⟩
  intro st s hst
  by_cases hb : m.bnd s.vert
  · simp only [hb, if_true]
    exact ⟨vec3_add_finite hst.1 (vec3_sub_finite (hpos s.vert) (hpos v)),
      dbl_add_finite hst.2 rfl⟩
  · simp only [hb, Bool.false_eq_true, if_false]
    exact hst

theorem dbl_finite_num {a : Dbl} (ha : a.isFinite = true) :
    ∃ q : ℚ, a = Dbl.num q := by
  cases a with
  | num q => exact ⟨q, rfl⟩
  | inf => cases ha
  | ninf => cases ha
  | nan => cases ha

theorem talLaplacian_finite (mp : MathPrims) (m : Mesh) (pos : Pos) (v : ℕ)
    (hpos : ∀ u, (pos u).allFinite = true)
    (harea : ∀ f, (m.areaF pos f).isFinite = true)
    (hexp : ∀ x, ∃ q : ℚ, mp.expD x = Dbl.num q)
    (hint : m.bnd v = false →
      (talInteriorAccum m pos (fun u => vertex_area m pos u) v).2 ≠ Dbl.num 0)
    (hbnd : m.bnd v = true → (talBoundaryAccum m pos v).2 ≠ Dbl.num 0) :
    (talLaplacian mp m pos (fun u => vertex_area m pos u) v).allFinite = true := by
  unfold talLaplacian
  by_cases hb : m.bnd v
  · simp only [hb, if_true]
    obtain ⟨hf1, hf2⟩ := talBoundaryAccum_finite m pos v hpos
    obtain ⟨qe, he⟩ := hexp ((Dbl.num (-3)).mul
      (Dbl.sqr (Dbl.cppMax (Dbl.num 0) ((Dbl.num mPIQ).sub (talAngleSum mp m pos v)))))
    rw [he]
    apply vec3_smul_finite (show (Dbl.num qe).isFinite = true from rfl)
    apply vec3_sdiv_finite hf1 hf2
    intro q hq
    obtain ⟨qw, hqw⟩ := dbl_finite_num hf2
    rw [hqw] at hq
    have hq2 : qw = q := by injection hq
    subst hq2
    have := hbnd hb
    rw [hqw] at this
    intro h0
    exact this (by rw [Rat.num_eq_zero.mp h0])
  · simp only [hb, Bool.false_eq_true, if_false]
    obtain ⟨hf1, hf2⟩ := talInteriorAccum_finite m pos
      (fun u => vertex_area m pos u) v hpos
      (fun u => vertex_area_finite m pos u harea)
    apply vec3_sdiv_finite hf1 hf2
    intro q hq
    have := hint (Bool.not_eq_true _ |>.mp hb)
    rw [hq] at this
    intro h0
    exact this (by rw [Rat.num_eq_zero.mp h0])

/-- C2 (amended): the guarded-denominator policy does not hold for
`TAL_smoothing` (nor for `anisotropic_smooth`): its weight-sum divisions are
unguarded, and a vanishing weight sum makes it write NaN back to the mesh
(see the counterexample).  Under the additional assumptions that every
interior area-weight sum and every boundary-neighbour count is nonzero (with
finite positions, areas and exp values), one TAL iteration writes only finite
positions. -/
theorem talIter_finite_of_nonzero_weights (mp : MathPrims) (m : Mesh)
    (w : Dbl) (pos : Pos) (hw : w.isFinite = true)
    (hpos : ∀ u, (pos u).allFinite = true)
    (harea : ∀ f, (m.areaF pos f).isFinite = true)
    (hexp : ∀ x, ∃ q : ℚ, mp.expD x = Dbl.num q)
    (hint : ∀ v, v ∈ m.verts → m.bnd v = false →
      (talInteriorAccum m pos (fun u => vertex_area m pos u) v).2 ≠ Dbl.num 0)
    (hbnd : ∀ v, v ∈ m.verts → m.bnd v = true →
      (talBoundaryAccum m pos v).2 ≠ Dbl.num 0) :
    ∀ v, ((talIter mp m w pos) v).allFinite = true := by
  intro v
  unfold talIter
  by_cases hv : v ∈ m.verts
  · simp only [hv, if_true]
    exact vec3_add_finite (hpos v)
      (vec3_smul_finite hw
        (talLaplacian_finite mp m pos v hpos harea hexp (hint v hv) (hbnd v hv)))
  · simp only [hv, if_false]
    exact hpos v

/-- Positions for the C2 counterexample: three collinear vertices, so every
incident triangle has zero area. -/
def posC2 : Pos := fun u =>
  if u = 1 then ⟨Dbl.num 1, Dbl.num 0, Dbl.num 0⟩
  else if u = 2 then ⟨Dbl.num 2, Dbl.num 0, Dbl.num 0⟩
  else Vec3.zero

/-- The C2 counterexample mesh: interior vertex `0` whose two incident faces
are degenerate (zero area), making every neighbour's vertex area zero. -/
def meshC2 : Mesh where
  verts := [0, 1, 2]
  bnd := fun _ => false
  pos0 := posC2
  ring := fun u =>
    if u = 0 then [⟨1, 2, 2, 2, some 10⟩, ⟨2, 1, 1, 1, some 11⟩]
    else if u = 1 then [⟨0, 2, 2, 2, some 10⟩]
    else if u = 2 then [⟨0, 1, 1, 1, some 11⟩]
    else []
  faces := [10, 11]
  fverts := fun _ => []
  vfaces := fun _ => []
  normalF := fun _ _ => Vec3.zero
  areaF := fun _ _ => Dbl.num 0
  centreF := fun _ _ => Vec3.zero
  hedges := []
  hVert := fun h => h
  hOppVert := fun h => h
  hFace := fun _ => none

/-- C2 counterexample: on `meshC2` the interior vertex `0` has a vanishing
area-weight sum, the unguarded division `laplacians[v] /= weight_sum` yields
NaN, and one `TAL_smoothing` iteration writes a NaN position back to the
mesh — the update is not finite, and the vanishing-denominator ratio did not
become a zero contribution. -/
theorem tal_smoothing_nan_counterexample :
    meshC2.bnd 0 = false ∧ (0 : ℕ) ∈ meshC2.verts ∧
    (talInteriorAccum meshC2 posC2 (fun u => vertex_area meshC2 posC2 u) 0).2 =
      Dbl.num 0 ∧
    ((TAL_smoothing mpW meshC2 (Dbl.num (mkRat 1 2)) 1) 0).x.isNan = true := by
  decide

/-- The C2 witness mesh: two mutually adjacent interior vertices with
unit-area incident faces, so every weight sum is nonzero. -/
def meshC2w : Mesh where
  verts := [0, 1]
  bnd := fun _ => false
  pos0 := fun _ => Vec3.zero
  ring := fun u =>
    if u = 0 then [⟨1, 1, 1, 1, some 10⟩]
    else if u = 1 then [⟨0, 0, 0, 0, some 10⟩]
    else []
  faces := [10]
  fverts := fun _ => []
  vfaces := fun _ => []
  normalF := fun _ _ => Vec3.zero
  areaF := fun _ _ => Dbl.num 1
  centreF := fun _ _ => Vec3.zero
  hedges := []
  hVert := fun h => h
  hOppVert := fun h => h
  hFace := fun _ => none

/-- Witness for C2 (amended) on `meshC2w`: all hypotheses hold concretely and
the TAL iteration writes a finite position at vertex `0`. -/
theorem talIter_finite_witness :
    ((talIter mpW meshC2w (Dbl.num 1) meshC2w.pos0) 0).allFinite = true :=
  talIter_finite_of_nonzero_weights mpW meshC2w (Dbl.num 1) meshC2w.pos0 rfl
    (fun _ => rfl) (fun _ => rfl) (fun _ => ⟨1, rfl⟩)
    (by intro v hv hb; fin_cases hv <;> decide)
    (fun v hv hb => by cases hb) 0

theorem dbl_num_add (p q : ℚ) : (Dbl.num p).add (Dbl.num q) = Dbl.num (p + q) := by
  simp [Dbl.add, ratAdd_eq]

theorem dbl_num_mul (p q : ℚ) : (Dbl.num p).mul (Dbl.num q) = Dbl.num (p * q) := by
  simp [Dbl.mul, ratMul_eq]

theorem dbl_num_sub (p q : ℚ) : (Dbl.num p).sub (Dbl.num q) = Dbl.num (p - q) := by
  simp [Dbl.sub, Dbl.neg, Dbl.add, ratAdd_eq, sub_eq_add_neg]

theorem dbl_num_div (p q : ℚ) (hq : q.num ≠ 0) :
    (Dbl.num p).div (Dbl.num q) = Dbl.num (p / q) := by
  simp [Dbl.div, hq, ratDiv_eq]

theorem vec3_dot_num (a b c d e f : ℚ) :
    Vec3.dot ⟨Dbl.num a, Dbl.num b, Dbl.num c⟩ ⟨Dbl.num d, Dbl.num e, Dbl.num f⟩ =
      Dbl.num (a * d + (b * e + c * f)) := by
  simp only [Vec3.dot, dbl_num_mul, dbl_num_add]
  congr 1
  ring

theorem foldl_preserve_mem {α β : Type} (P : α → Prop) (f : α → β → α) :
    ∀ (l : List β), (∀ a b, b ∈ l → P a → P (f a b)) → ∀ a, P a → P (l.foldl f a) := by
  intro l
  induction l with
  | nil => intro _ a ha; exact ha
  | cons c rest ih =>
    intro hstep a ha
    exact ih (fun a b hb => hstep a b (List.mem_cons_of_mem c hb)) _
      (hstep a c (List.mem_cons_self c rest) ha)

theorem foldl_grows {β : Type} (g : List ℕ → β → List ℕ)
    (hg : ∀ acc b, ∃ t, g acc b = acc ++ t) (l : List β) :
    ∀ acc, ∃ t, l.foldl g acc = acc ++ t := by
  induction l with
  | nil => exact fun acc => ⟨[], (List.append_nil acc).symm⟩
  | cons c rest ih =>
    intro acc
    obtain ⟨t1, h1⟩ := hg acc c
    obtain ⟨t2, h2⟩ := ih (g acc c)
    exact ⟨t1 ++ t2, by rw [List.foldl_cons, h2, h1, List.append_assoc]⟩

theorem face_neighbourhood_cons (m : Mesh) (f : ℕ) :
    ∃ t, face_neighbourhood m f = f :: t := by
  unfold face_neighbourhood
  have h := foldl_grows
    (fun nbrs v =>
      (m.vfaces v).foldl
        (fun nbrs fo =>
          match fo with
          | none => nbrs
          | some fn => if fn ∈ nbrs then nbrs else nbrs ++ [fn])
        nbrs)
    (fun acc v => foldl_grows _
      (fun acc2 fo => by
        cases fo with
        | none => exact ⟨[], (List.append_nil acc2).symm⟩
        | some fn =>
          by_cases hmem : fn ∈ acc2
          · exact ⟨[], by simp [hmem]⟩
          · exact ⟨[fn], by simp [hmem]⟩)
      (m.vfaces v) acc)
    (m.fverts f) [f]
  obtain ⟨t, ht⟩ := h
  exact ⟨t, ht⟩

theorem fvmDistSum_all_eq (l : List Vec3) (n : Vec3)
    (hdot : Vec3.dot n n = Dbl.num 1) (hl : ∀ x ∈ l, x = n) :
    fvmDistSum l n = Dbl.num 0 := by
  unfold fvmDistSum
  refine foldl_preserve_mem (fun a => a = Dbl.num 0) _ l ?_ _ rfl
  intro a nj hj ha
  rw [ha, hl nj hj, hdot]
  rw [dbl_num_sub, dbl_num_add]
  norm_num

theorem fvmMedian_all_eq (l : List Vec3) (n : Vec3) (hl : ∀ x ∈ l, x = n)
    (hne : l ≠ []) (hdot : Vec3.dot n n = Dbl.num 1) :
    fvmMedian l = (Dbl.num 0, n) := by
  obtain ⟨c, t, rfl⟩ : ∃ c t, l = c :: t := by
    cases l with
    | nil => exact absurd rfl hne
    | cons c t => exact ⟨c, t, rfl⟩
  have hc := hl c (List.mem_cons_self c t)
  subst hc
  have hds : fvmDistSum (c :: t) c = Dbl.num 0 := fvmDistSum_all_eq _ c hdot hl
  unfold fvmMedian
  rw [List.foldl_cons]
  have h1 : (if Dbl.lt (fvmDistSum (c :: t) c)
        ((Dbl.num 100000000000000000000000000000000, Vec3.zero) : Dbl × Vec3).1 = true then
      (fvmDistSum (c :: t) c, c)
    else ((Dbl.num 100000000000000000000000000000000, Vec3.zero) : Dbl × Vec3)) =
      (Dbl.num 0, c) := by
    rw [hds, if_pos]
    decide
  rw [h1]
  refine foldl_preserve_mem (fun best => best = (Dbl.num 0, c)) _ t ?_ _ rfl
  intro best nn hnn hbest
  rw [hbest, hl nn (List.mem_cons_of_mem c hnn), hds,
    show (((Dbl.num 0, c) : Dbl × Vec3).1) = Dbl.num 0 from rfl, if_neg]
  decide

theorem fvmWeight_self (mp : MathPrims) (med nn : Vec3)
    (hdot : Vec3.dot med nn = Dbl.num 1)
    (hexp : mp.expD (Dbl.num 0) = Dbl.num 1) :
    fvmWeight mp med nn = Dbl.num 1 := by
  unfold fvmWeight
  rw [hdot]
  have h0 : ((Dbl.num 1).sub (Dbl.num 1)).div (Dbl.num (mkRat 1 10)) = Dbl.num 0 := by
    decide
  rw [h0, hexp, if_neg]
  decide

theorem fold_weighted_all_one (mp : MathPrims) (med : Vec3) (a b c : ℚ) :
    ∀ (l : List Vec3), (∀ x ∈ l, x = (⟨Dbl.num a, Dbl.num b, Dbl.num c⟩ : Vec3)) →
    (∀ x ∈ l, fvmWeight mp med x = Dbl.num 1) →
    ∀ (p q r : ℚ),
    l.foldl (fun acc nn => Vec3.add acc (Vec3.smul (fvmWeight mp med nn) nn))
        ⟨Dbl.num p, Dbl.num q, Dbl.num r⟩ =
      ⟨Dbl.num (p + l.length * a), Dbl.num (q + l.length * b),
        Dbl.num (r + l.length * c)⟩ := by
  intro l
  induction l with
  | nil =>
    intro _ _ p q r
    simp
  | cons x t ih =>
    intro hall hw p q r
    rw [List.foldl_cons, hw x (List.mem_cons_self x t),
      hall x (List.mem_cons_self x t)]
    have hsm : Vec3.smul (Dbl.num 1) (⟨Dbl.num a, Dbl.num b, Dbl.num c⟩ : Vec3) =
        ⟨Dbl.num a, Dbl.num b, Dbl.num c⟩ := by
      simp [Vec3.smul, dbl_num_mul]
    have had : Vec3.add ⟨Dbl.num p, Dbl.num q, Dbl.num r⟩
        ⟨Dbl.num a, Dbl.num b, Dbl.num c⟩ =
        ⟨Dbl.num (p + a), Dbl.num (q + b), Dbl.num (r + c)⟩ := by
      simp [Vec3.add, dbl_num_add]
    rw [hsm, had, ih (fun y hy => hall y (List.mem_cons_of_mem x hy))
      (fun y hy => hw y (List.mem_cons_of_mem x hy))]
    have hlen : (((⟨Dbl.num a, Dbl.num b, Dbl.num c⟩ : Vec3) :: t).length : ℚ) =
        (t.length : ℚ) + 1 := by
      push_cast [List.length_cons]
      ring
    rw [hlen]
    simp only [Vec3.mk.injEq, Dbl.num.injEq]
    refine ⟨by ring, by ring, by ring⟩

/-- C7: if every face in the extended neighbourhood of `f` has the same unit
normal `n = (a, b, c)`, then in `fvm_filtered_normal` every neighbour's
weight equals 1 and the returned filtered normal equals `n` exactly (under
the facts `exp(0) = 1` and that the external square root is exact on the
square of the neighbourhood count). -/
theorem fvm_uniform_normal (mp : MathPrims) (m : Mesh) (pos : Pos) (f : ℕ)
    (a b c : ℚ) (hunit : a * a + (b * b + c * c) = 1)
    (hall : ∀ g ∈ face_neighbourhood m f,
      m.normalF pos g = ⟨Dbl.num a, Dbl.num b, Dbl.num c⟩)
    (hexp : mp.expD (Dbl.num 0) = Dbl.num 1)
    (hsqrt : mp.sqrtD (Dbl.num (((face_neighbourhood m f).length : ℚ) *
        ((face_neighbourhood m f).length : ℚ))) =
      Dbl.num ((face_neighbourhood m f).length : ℚ)) :
    (∀ g ∈ face_neighbourhood m f,
      fvmWeight mp ⟨Dbl.num a, Dbl.num b, Dbl.num c⟩ (m.normalF pos g) =
        Dbl.num 1) ∧
    fvm_filtered_normal mp m pos f = ⟨Dbl.num a, Dbl.num b, Dbl.num c⟩ := by
  have hdot : Vec3.dot ⟨Dbl.num a, Dbl.num b, Dbl.num c⟩
      ⟨Dbl.num a, Dbl.num b, Dbl.num c⟩ = Dbl.num 1 := by
    rw [vec3_dot_num, hunit]
  have hne : face_neighbourhood m f ≠ [] := by
    obtain ⟨t, ht⟩ := face_neighbourhood_cons m f
    rw [ht]
    exact List.cons_ne_nil f t
  have hw : ∀ g ∈ face_neighbourhood m f,
      fvmWeight mp ⟨Dbl.num a, Dbl.num b, Dbl.num c⟩ (m.normalF pos g) =
        Dbl.num 1 := by
    intro g hg
    rw [hall g hg]
    exact fvmWeight_self mp _ _ hdot hexp
  refine ⟨hw, ?_⟩
  unfold fvm_filtered_normal
  have hmap : ∀ x ∈ (face_neighbourhood m f).map (m.normalF pos),
      x = (⟨Dbl.num a, Dbl.num b, Dbl.num c⟩ : Vec3) := by
    intro x hx
    obtain ⟨g, hg, rfl⟩ := List.mem_map.mp hx
    exact hall g hg
  have hmapne : (face_neighbourhood m f).map (m.normalF pos) ≠ [] := by
    simpa using hne
  have hmedian : fvmMedian ((face_neighbourhood m f).map (m.normalF pos)) =
      (Dbl.num 0, (⟨Dbl.num a, Dbl.num b, Dbl.num c⟩ : Vec3)) :=
    fvmMedian_all_eq _ _ hmap hmapne hdot
  rw [hmedian,
    show ((Dbl.num 0, (⟨Dbl.num a, Dbl.num b, Dbl.num c⟩ : Vec3)) :
      Dbl × Vec3).2 = ⟨Dbl.num a, Dbl.num b, Dbl.num c⟩ from rfl]
  have hw2 : ∀ x ∈ (face_neighbourhood m f).map (m.normalF pos),
      fvmWeight mp ⟨Dbl.num a, Dbl.num b, Dbl.num c⟩ x = Dbl.num 1 := by
    intro x hx
    rw [hmap x hx]
    exact fvmWeight_self mp _ _ hdot hexp
  rw [show Vec3.zero = (⟨Dbl.num 0, Dbl.num 0, Dbl.num 0⟩ : Vec3) from rfl,
    fold_weighted_all_one mp _ a b c _ hmap hw2 0 0 0]
  rw [List.length_map]
  rw [zero_add, zero_add, zero_add]
  unfold normalizeV Vec3.sqrLength
  rw [vec3_dot_num]
  have hk : (((face_neighbourhood m f).length : ℚ) * a) *
        (((face_neighbourhood m f).length : ℚ) * a) +
      ((((face_neighbourhood m f).length : ℚ) * b) *
        (((face_neighbourhood m f).length : ℚ) * b) +
      (((face_neighbourhood m f).length : ℚ) * c) *
        (((face_neighbourhood m f).length : ℚ) * c)) =
      ((face_neighbourhood m f).length : ℚ) *
        ((face_neighbourhood m f).length : ℚ) := by
    linear_combination (((face_neighbourhood m f).length : ℚ) *
      ((face_neighbourhood m f).length : ℚ)) * hunit
  rw [hk, hsqrt]
  have hkne : (((face_neighbourhood m f).length : ℚ)).num ≠ 0 := by
    rw [Rat.num_ne_zero]
    have : (face_neighbourhood m f).length ≠ 0 := by
      intro h0
      exact hne (List.eq_nil_of_length_eq_zero h0)
    exact_mod_cast this
  show Vec3.sdiv _ _ = _
  unfold Vec3.sdiv
  simp only [dbl_num_div _ _ hkne]
  have hkq : ((face_neighbourhood m f).length : ℚ) ≠ 0 :=
    Rat.num_ne_zero.mp hkne
  congr 1 <;> · congr 1; field_simp

/-- The C7 witness mesh: a single face `5` with an empty walker circulation,
so its extended neighbourhood is just itself, and constant unit normal
`(0, 0, 1)`. -/
def meshC7 : Mesh where
  verts := []
  bnd := fun _ => false
  pos0 := fun _ => Vec3.zero
  ring := fun _ => []
  faces := [5]
  fverts := fun _ => []
  vfaces := fun _ => []
  normalF := fun _ _ => ⟨Dbl.num 0, Dbl.num 0, Dbl.num 1⟩
  areaF := fun _ _ => Dbl.num 1
  centreF := fun _ _ => Vec3.zero
  hedges := []
  hVert := fun h => h
  hOppVert := fun h => h
  hFace := fun _ => none

/-- Witness for C7 on `meshC7` with the concrete primitives `mpW`: the weight
of the (only) neighbourhood face is 1 and the filtered normal is exactly the
common normal. -/
theorem fvm_uniform_normal_witness :
    fvmWeight mpW ⟨Dbl.num 0, Dbl.num 0, Dbl.num 1⟩
      (meshC7.normalF meshC7.pos0 5) = Dbl.num 1 ∧
    fvm_filtered_normal mpW meshC7 meshC7.pos0 5 =
      ⟨Dbl.num 0, Dbl.num 0, Dbl.num 1⟩ :=
  ⟨(fvm_uniform_normal mpW meshC7 meshC7.pos0 5 0 0 1 (by norm_num)
      (fun g _ => rfl) rfl rfl).1 5 (by decide),
    (fvm_uniform_normal mpW meshC7 meshC7.pos0 5 0 0 1 (by norm_num)
      (fun g _ => rfl) rfl rfl).2⟩

theorem dbl_add_assoc (a b c : Dbl) : (a.add b).add c = a.add (b.add c) := by
  cases a <;> cases b <;> cases c <;>
    simp [Dbl.add, ratAdd_eq, Rat.add_assoc]

theorem dbl_zero_add (a : Dbl) : (Dbl.num 0).add a = a := by
  cases a <;> simp [Dbl.add, ratAdd_eq]

theorem vec3_add_assoc (u v w : Vec3) :
    Vec3.add (Vec3.add u v) w = Vec3.add u (Vec3.add v w) := by
  simp [Vec3.add, dbl_add_assoc]

theorem vec3_zero_add (v : Vec3) : Vec3.add Vec3.zero v = v := by
  cases v
  simp [Vec3.add, Vec3.zero, dbl_zero_add]

theorem dbl_add_zero (a : Dbl) : a.add (Dbl.num 0) = a := by
  cases a <;> simp [Dbl.add, ratAdd_eq]

theorem vec3_add_zero (v : Vec3) : Vec3.add v Vec3.zero = v := by
  cases v
  simp [Vec3.add, Vec3.zero, dbl_add_zero]

theorem foldl_vec3_add_shift {β : Type} (g : β → Vec3) (l : List β) (x : Vec3) :
    l.foldl (fun a b => Vec3.add a (g b)) x =
      Vec3.add x (l.foldl (fun a b => Vec3.add a (g b)) Vec3.zero) := by
  induction l generalizing x with
  | nil =>
    rw [List.foldl_nil, List.foldl_nil, vec3_add_zero]
  | cons c t ih =>
    rw [List.foldl_cons, List.foldl_cons, ih (Vec3.add x (g c)),
      ih (Vec3.add Vec3.zero (g c)), vec3_zero_add, vec3_add_assoc]

theorem foldl_nat_add_shift {β : Type} (g : β → ℕ) (l : List β) (x : ℕ) :
    l.foldl (fun a b => a + g b) x = x + l.foldl (fun a b => a + g b) 0 := by
  induction l generalizing x with
  | nil => simp
  | cons c t ih =>
    rw [List.foldl_cons, List.foldl_cons, ih (x + g c), ih (0 + g c)]
    omega

/-- The fitted-position contribution one half-edge makes to vertex `v` in one
relaxation sub-iteration (zero when the half-edge has no valid face or points
elsewhere). -/
def anisoHContrib (m : Mesh) (norms : ℕ → Vec3) (pos : Pos) (v : ℕ) (h : ℕ) :
    Vec3 :=
  match m.hFace h with
  | none => Vec3.zero
  | some f =>
    if m.hVert h = v then
      Vec3.add (pos v)
        (Vec3.smul
          ((Dbl.num (mkRat 1 2)).mul
            (Vec3.dot (norms f) (Vec3.sub (pos (m.hOppVert h)) (pos v))))
          (norms f))
    else Vec3.zero

/-- The number of count increments one half-edge causes at vertex `v`. -/
def anisoHDeg (m : Mesh) (v : ℕ) (h : ℕ) : ℕ :=
  match m.hFace h with
  | none => 0
  | some _ => if m.hVert h = v then 1 else 0

/-- The total contribution accumulated at vertex `v` by one full half-edge
pass at positions `pos`. -/
def anisoContrib (m : Mesh) (norms : ℕ → Vec3) (pos : Pos) (v : ℕ) : Vec3 :=
  m.hedges.foldl (fun a h => Vec3.add a (anisoHContrib m norms pos v h)) Vec3.zero

/-- The number of valid half-edges pointing at `v` (count increment per
sub-iteration). -/
def anisoDeg (m : Mesh) (v : ℕ) : ℕ :=
  m.hedges.foldl (fun c h => c + anisoHDeg m v h) 0

theorem anisoAccumStep_state (m : Mesh) (norms : ℕ → Vec3) (s : AnisoState)
    (e v : ℕ) :
    (anisoAccumStep m norms s e).pos = s.pos ∧
    (anisoAccumStep m norms s e).acc v =
      Vec3.add (s.acc v) (anisoHContrib m norms s.pos v e) ∧
    (anisoAccumStep m norms s e).cnt v = s.cnt v + anisoHDeg m v e := by
  unfold anisoAccumStep anisoHContrib anisoHDeg
  cases hf : m.hFace e with
  | none => exact ⟨rfl, by rw [vec3_add_zero], rfl⟩
  | some f =>
    dsimp only
    refine ⟨rfl, ?_, ?_⟩
    · by_cases hv : v = m.hVert e
      · subst hv
        rw [if_pos rfl, if_pos rfl]
      · rw [if_neg hv, if_neg (fun hh => hv hh.symm), vec3_add_zero]
    · by_cases hv : v = m.hVert e
      · subst hv
        rw [if_pos rfl, if_pos rfl]
      · rw [if_neg hv, if_neg (fun hh => hv hh.symm)]
        omega

theorem anisoAccum_fold (m : Mesh) (norms : ℕ → Vec3) (v : ℕ) :
    ∀ (l : List ℕ) (s : AnisoState),
      (l.foldl (anisoAccumStep m norms) s).pos = s.pos ∧
      (l.foldl (anisoAccumStep m norms) s).acc v =
        Vec3.add (s.acc v)
          (l.foldl (fun a h => Vec3.add a (anisoHContrib m norms s.pos v h))
            Vec3.zero) ∧
      (l.foldl (anisoAccumStep m norms) s).cnt v =
        s.cnt v + l.foldl (fun c h => c + anisoHDeg m v h) 0 := by
  intro l
  induction l with
  | nil =>
    intro s
    exact ⟨rfl, by rw [List.foldl_nil, List.foldl_nil, vec3_add_zero], by simp⟩
  | cons e t ih =>
    intro s
    obtain ⟨p1, p2, p3⟩ := anisoAccumStep_state m norms s e v
    obtain ⟨g1, g2, g3⟩ := ih (anisoAccumStep m norms s e)
    rw [p1] at g2
    rw [List.foldl_cons, List.foldl_cons, List.foldl_cons]
    refine ⟨by rw [g1, p1], ?_, ?_⟩
    · rw [g2, p2, foldl_vec3_add_shift _ t (Vec3.add Vec3.zero _), vec3_zero_add,
        vec3_add_assoc]
    · rw [g3, p3, foldl_nat_add_shift _ t (0 + anisoHDeg m v e)]
      omega

theorem anisoAccum_state (m : Mesh) (norms : ℕ → Vec3) (st : AnisoState)
    (v : ℕ) :
    (anisoAccum m norms st).pos = st.pos ∧
    (anisoAccum m norms st).acc v =
      Vec3.add (st.acc v) (anisoContrib m norms st.pos v) ∧
    (anisoAccum m norms st).cnt v = st.cnt v + anisoDeg m v :=
  anisoAccum_fold m norms v m.hedges st

theorem anisoWrite_fold (acc : ℕ → Vec3) (cnt : ℕ → ℕ) :
    ∀ (l : List ℕ) (s : AnisoState) (mm : Dbl), s.acc = acc → s.cnt = cnt →
      (l.foldl anisoWriteStep (s, mm)).1.acc = acc ∧
      (l.foldl anisoWriteStep (s, mm)).1.cnt = cnt ∧
      ∀ v, (l.foldl anisoWriteStep (s, mm)).1.pos v =
        if v ∈ l then Vec3.sdiv (acc v) (Dbl.num (cnt v : ℚ)) else s.pos v := by
  intro l
  induction l with
  | nil =>
    intro s mm ha hc
    exact ⟨ha, hc, fun v => by simp⟩
  | cons u t ih =>
    intro s mm ha hc
    rw [List.foldl_cons]
    obtain ⟨g1, g2, g3⟩ := ih (anisoWriteStep (s, mm) u).1
      (anisoWriteStep (s, mm) u).2 (by rw [← ha]; rfl) (by rw [← hc]; rfl)
    refine ⟨g1, g2, fun v => ?_⟩
    rw [g3 v]
    by_cases hvt : v ∈ t
    · rw [if_pos hvt, if_pos (List.mem_cons_of_mem u hvt)]
    · rw [if_neg hvt]
      by_cases hvu : v = u
      · subst hvu
        rw [if_pos (List.mem_cons_self v t)]
        show setPos s.pos v (Vec3.sdiv (s.acc v) (Dbl.num (s.cnt v : ℚ))) v = _
        rw [setPos, if_pos rfl, ha, hc]
      · rw [if_neg (by
          intro hmem
          rcases List.mem_cons.mp hmem with h | h
          · exact hvu h
          · exact hvt h)]
        show setPos s.pos u (Vec3.sdiv (s.acc u) (Dbl.num (s.cnt u : ℚ))) v = s.pos v
        rw [setPos, if_neg hvu]

theorem anisoWrite_state (m : Mesh) (st : AnisoState) :
    (anisoWrite m st).1.acc = st.acc ∧ (anisoWrite m st).1.cnt = st.cnt ∧
    ∀ v, (anisoWrite m st).1.pos v =
      if v ∈ m.verts then Vec3.sdiv (st.acc v) (Dbl.num (st.cnt v : ℚ))
      else st.pos v :=
  anisoWrite_fold st.acc st.cnt m.verts st (Dbl.num 0) rfl rfl

/-- The relaxation sub-iteration trace within one outer iteration: state `s`
is reached after `s` sub-iterations, starting from freshly zeroed accumulator
and count attributes. -/
def anisoTrace (m : Mesh) (norms : ℕ → Vec3) (pos : Pos) : ℕ → AnisoState
  | 0 => ⟨pos, fun _ => Vec3.zero, fun _ => 0⟩
  | s + 1 => (anisoSubIter m norms (anisoTrace m norms pos s)).1

/-- C9: within one outer iteration of `anisotropic_smooth` the per-vertex
accumulator and count are initialized once, before the sub-iteration loop
(`anisoOuter` starts the relaxation from zeroed attributes), and are never
reset between sub-iterations: each sub-iteration adds the current half-edge
contributions on top of the previous accumulator, the count after `s`
sub-iterations is `s` times the vertex degree, and the position written in
sub-iteration `s+1` is the accumulator of ALL sub-iterations so far divided
by the total count — not the average of the last sub-iteration alone. -/
theorem aniso_accumulator_no_reset (m : Mesh) (norms : ℕ → Vec3) (pos : Pos)
    (v : ℕ) :
    (∀ s, (anisoTrace m norms pos (s + 1)).acc v =
        Vec3.add ((anisoTrace m norms pos s).acc v)
          (anisoContrib m norms (anisoTrace m norms pos s).pos v)) ∧
    (∀ s, (anisoTrace m norms pos s).cnt v = s * anisoDeg m v) ∧
    (∀ s, v ∈ m.verts →
      (anisoTrace m norms pos (s + 1)).pos v =
        Vec3.sdiv ((anisoTrace m norms pos (s + 1)).acc v)
          (Dbl.num (((s + 1) * anisoDeg m v : ℕ) : ℚ))) ∧
    (∀ (mp : MathPrims) (nsm : NormalSmoothMethod) (avg : Dbl) (p0 : Pos),
      anisoOuter mp m nsm avg p0 =
        (anisoRelax m (anisoNorms mp m nsm avg p0)
          (Dbl.sqr ((Dbl.num (mkRat 1 100000000)).mul avg)) 100
          ⟨p0, fun _ => Vec3.zero, fun _ => 0⟩).pos) := by
  have hacc : ∀ s, (anisoTrace m norms pos (s + 1)).acc v =
      Vec3.add ((anisoTrace m norms pos s).acc v)
        (anisoContrib m norms (anisoTrace m norms pos s).pos v) := by
    intro s
    show ((anisoWrite m (anisoAccum m norms (anisoTrace m norms pos s))).1).acc v = _
    rw [congrFun (anisoWrite_state m (anisoAccum m norms (anisoTrace m norms pos s))).1 v]
    exact (anisoAccum_state m norms (anisoTrace m norms pos s) v).2.1
  have hcnt : ∀ s, (anisoTrace m norms pos s).cnt v = s * anisoDeg m v := by
    intro s
    induction s with
    | zero => simp [anisoTrace]
    | succ k ih =>
      show ((anisoWrite m (anisoAccum m norms (anisoTrace m norms pos k))).1).cnt v =
        (k + 1) * anisoDeg m v
      rw [congrFun (anisoWrite_state m (anisoAccum m norms (anisoTrace m norms pos k))).2.1 v,
        (anisoAccum_state m norms (anisoTrace m norms pos k) v).2.2, ih]
      ring
  refine ⟨hacc, hcnt, fun s hv => ?_, fun mp nsm avg p0 => rfl⟩
  show ((anisoWrite m (anisoAccum m norms (anisoTrace m norms pos s))).1).pos v = _
  rw [(anisoWrite_state m (anisoAccum m norms (anisoTrace m norms pos s))).2.2 v,
    if_pos hv]
  have h1 : (anisoAccum m norms (anisoTrace m norms pos s)).acc v =
      (anisoTrace m norms pos (s + 1)).acc v :=
    (congrFun (anisoWrite_state m (anisoAccum m norms (anisoTrace m norms pos s))).1 v).symm
  have h2 : (anisoAccum m norms (anisoTrace m norms pos s)).cnt v =
      (s + 1) * anisoDeg m v := by
    rw [(anisoAccum_state m norms (anisoTrace m norms pos s) v).2.2, hcnt s]
    ring
  rw [h1, h2]

/-- Witness for C9 at a concrete mesh: vertex `0` is a mesh vertex and the
position written by the first sub-iteration equals the accumulated
contribution divided by the accumulated count. -/
theorem aniso_accumulator_no_reset_witness :
    (0 : ℕ) ∈ meshC2w.verts ∧
    (anisoTrace meshC2w (fun _ => Vec3.zero) meshC2w.pos0 1).pos 0 =
      Vec3.sdiv ((anisoTrace meshC2w (fun _ => Vec3.zero) meshC2w.pos0 1).acc 0)
        (Dbl.num (((0 + 1) * anisoDeg meshC2w 0 : ℕ) : ℚ)) :=
  ⟨by decide,
    (aniso_accumulator_no_reset meshC2w (fun _ => Vec3.zero)
      meshC2w.pos0 0).2.2.1 0 (by decide)⟩

set_option maxRecDepth 8192

/-- Fuel-driven binary integer square root (exact on perfect squares); the
fuel recursion keeps it kernel-reducible. -/
def isqrtBits (n : ℕ) : ℕ → ℕ → ℕ → ℕ
  | 0, _, acc => acc
  | k + 1, p, acc =>
    isqrtBits n k (p / 2) (if (acc + p) * (acc + p) ≤ n then acc + p else acc)

/-- Integer square root for numbers below `2^128`. -/
def isqrt (n : ℕ) : ℕ := isqrtBits n 64 9223372036854775808 0

/-- A concrete square-root instantiation of the external `sqrt`, exact on
perfect squares of nonnegative rationals — the only inputs the anisotropic
counterexample evaluates it on. -/
def ratSqrt : Dbl → Dbl
  | Dbl.num q => Dbl.num (mkRat (Int.ofNat (isqrt q.num.toNat)) (isqrt q.den))
  | Dbl.inf => Dbl.inf
  | Dbl.ninf => Dbl.nan
  | Dbl.nan => Dbl.nan

/-- The concrete primitives for the C8 counterexample: exact square root,
`exp ≡ 1` (only evaluated at 0 by the FVM filter), trigonometry unused. -/
def mpC8 : MathPrims where
  sqrtD := ratSqrt
  expD := fun _ => Dbl.num 1
  sinD := fun _ => Dbl.num 1
  acosD := fun _ => Dbl.num 0

/-- Positions for the C8 counterexample: a long static edge on the x axis
(vertices 0, 1) and a short chain on the z axis (vertices 2, 3, 4). -/
def posC8 : Pos := fun u =>
  if u = 1 then ⟨Dbl.num (mkRat 18749999 2), Dbl.num 0, Dbl.num 0⟩
  else if u = 3 then ⟨Dbl.num 0, Dbl.num 0, Dbl.num (mkRat 1 4)⟩
  else if u = 4 then ⟨Dbl.num 0, Dbl.num 0, Dbl.num 1⟩
  else Vec3.zero

/-- The C8 counterexample mesh: all faces carry the constant normal
`(0, 0, 1)` (their walker circulations are empty, so each face's extended
neighbourhood is itself), the x-axis edge is orthogonal to every normal and
therefore static, and the z-axis chain relaxes. -/
def meshC8 : Mesh where
  verts := [0, 1, 2, 3, 4]
  bnd := fun _ => false
  pos0 := posC8
  ring := fun _ => []
  faces := [10, 11, 12, 13, 14, 15]
  fverts := fun _ => []
  vfaces := fun _ => []
  normalF := fun _ _ => ⟨Dbl.num 0, Dbl.num 0, Dbl.num 1⟩
  areaF := fun _ _ => Dbl.num 1
  centreF := fun _ _ => Vec3.zero
  hedges := [0, 1, 2, 3, 4, 5]
  hVert := fun h =>
    if h = 0 then 1 else if h = 1 then 0 else if h = 2 then 3
    else if h = 3 then 2 else if h = 4 then 4 else 3
  hOppVert := fun h =>
    if h = 0 then 0 else if h = 1 then 1 else if h = 2 then 2
    else if h = 3 then 3 else if h = 4 then 3 else 4
  hFace := fun h => some (10 + h)

/-- C8 counterexample: recomputing the average half-edge length once per
outer iteration (as the claim states) changes the result — after the first
outer iteration the mesh has shrunk, the recomputed average lowers the
convergence threshold of the second outer iteration, its relaxation runs one
sub-iteration longer, and vertex 2 ends at a different position than under
the code's once-per-call average. -/
theorem aniso_avg_len_counterexample :
    anisotropic_smooth mpC8 meshC8 NormalSmoothMethod.FVM_NORMAL_SMOOTH 2 2 ≠
      anisotropic_smooth_claimed mpC8 meshC8
        NormalSmoothMethod.FVM_NORMAL_SMOOTH 2 2 := by
  decide

/-- C8 (amended): `anisotropic_smooth` computes the global average half-edge
length once per CALL, before the outer loop — the sum of all half-edge
lengths at the entry positions divided by 2 — and feeds that single value to
every outer iteration (as bilateral spatial bandwidth and in the convergence
threshold `sqr(1e-8 * avg_len)` inside `anisoOuter`); consequently it agrees
with the per-iteration-recomputation reading for a single outer iteration,
diverging only from the second iteration on. -/
theorem anisotropic_smooth_avg_once (mp : MathPrims) (m : Mesh)
    (nsm : NormalSmoothMethod) (maxIter : ℕ) :
    (anisotropic_smooth mp m nsm maxIter =
      (List.range maxIter).foldl
        (fun pos _ =>
          anisoOuter mp m nsm ((halfEdgeLenSum mp m m.pos0).div (Dbl.num 2)) pos)
        m.pos0) ∧
    anisotropic_smooth mp m nsm 1 = anisotropic_smooth_claimed mp m nsm 1 := by
  refine ⟨rfl, ?_⟩
  show anisoOuter mp m nsm (avgEdgeLen mp m m.pos0) m.pos0 =
    anisoOuter mp m nsm (avgEdgeLen mp m m.pos0) m.pos0
  rfl
